import Mathlib

/-!
# Leaf store of silkstore: leaf index format, builder and read path

A shallow embedding of `src/silkstore/leaf_store.h` and `src/silkstore/leaf_store.cc`.

* Buffers (`std::string`) are lists of bytes.
* A `Slice` is a pointer with a length: the storage it points into, the offset of
  `data()` in that storage, and `size()`.
* `assert` is part of the program: a function that can fail an assertion reports it
  (`none`, or the exit `Exit.aborted Fault.assertFailed` of a call).
* `uint32_t` values are natural numbers reduced modulo 2^32 where the source converts;
  the `int` loop counters are natural numbers below 2^31 and the signed overflow of
  `++i` is reported as `Fault.signedOverflow`.
* Callbacks that capture variables by reference are functions that pass the captured
  state explicitly.
-/

namespace Silkstore

/-! ## Bytes, fixed-width integers, slices -/

/-- One byte of a buffer: a `char` read as an unsigned 8-bit value. -/
abbrev Byte := Fin 256

/-- The low eight bits of a number, as a byte. -/
def byteOf (n : Nat) : Byte := ⟨n % 256, Nat.mod_lt n (by decide)⟩

/-- Modelled from the spec: `EncodeFixed32` of `util/coding.h` is not among the
sources; section 4.1 fixes the encoding as little-endian, fixed-width, 32 bits. The
argument is converted to `uint32_t`, so only its value modulo 2^32 is written. -/
def EncodeFixed32 (value : Nat) : List Byte :=
  [byteOf value, byteOf (value / 256), byteOf (value / 65536), byteOf (value / 16777216)]

/-- Modelled from the spec: `PutFixed32` of `util/coding.h` is not among the sources;
it appends the four bytes of `EncodeFixed32` to the buffer. -/
def PutFixed32 (dst : List Byte) (value : Nat) : List Byte :=
  dst ++ EncodeFixed32 value

/-- Modelled from the spec: `DecodeFixed32` of `util/coding.h` is not among the
sources; it reads the little-endian 32-bit value stored in the four bytes at
position `p` of the storage `mem`. -/
def DecodeFixed32 (mem : List Byte) (p : Nat) : Nat :=
  (mem.getD p 0).val + 256 * (mem.getD (p + 1) 0).val
    + 65536 * (mem.getD (p + 2) 0).val + 16777216 * (mem.getD (p + 3) 0).val

/-- Modelled from the spec: `leveldb::Slice` (`leveldb/slice.h` is not among the
sources) is a pointer and a length. The pointer is the pair of the storage `mem` and
the offset `data_` into it. -/
structure Slice where
  mem : List Byte
  data_ : Nat
  size_ : Nat
deriving DecidableEq, Repr

/-- The slice `Slice()`: no bytes. -/
def Slice.empty : Slice := ⟨[], 0, 0⟩

/-- The slice `Slice(s)` over a whole string. -/
def Slice.ofString (s : List Byte) : Slice := ⟨s, 0, s.length⟩

/-- The bytes a slice views: `size_` bytes of the storage from `data_` on. -/
def Slice.toBytes (s : Slice) : List Byte := (s.mem.drop s.data_).take s.size_

/-- A slice lies within its storage. -/
def Slice.InBounds (s : Slice) : Prop := s.data_ + s.size_ ≤ s.mem.length

instance (s : Slice) : Decidable s.InBounds := by
  unfold Slice.InBounds; infer_instance

/-! ## `MiniRunIndexEntry` -/

/-- The class `MiniRunIndexEntry` of `leaf_store.h` with its five private fields. -/
structure MiniRunIndexEntry where
  raw_data_ : Slice
  segment_number_ : Nat
  run_no_within_segment_ : Nat
  block_index_data_len_ : Nat
  filter_data_len_ : Nat
deriving DecidableEq, Repr

namespace MiniRunIndexEntry

/-- The body of the constructor `MiniRunIndexEntry(const Slice &data)` after its
assertion: the pointer `p` advances by 4 after each read, so the four header fields
are read at offsets 0, 4, 8 and 12. -/
def read (data : Slice) : MiniRunIndexEntry :=
  { raw_data_ := data
    segment_number_ := DecodeFixed32 data.mem data.data_
    run_no_within_segment_ := DecodeFixed32 data.mem (data.data_ + 4)
    block_index_data_len_ := DecodeFixed32 data.mem (data.data_ + 8)
    filter_data_len_ := DecodeFixed32 data.mem (data.data_ + 12) }

/-- The constructor `MiniRunIndexEntry(const Slice &data)`; `none` is the failure of
`assert(raw_data_.size() >= 16)`. There is no other check. -/
def ctor (data : Slice) : Option MiniRunIndexEntry :=
  if 16 ≤ data.size_ then some (read data) else none

/-- The method `GetBlockIndexData`. -/
def GetBlockIndexData (e : MiniRunIndexEntry) : Slice :=
  ⟨e.raw_data_.mem, e.raw_data_.data_ + 16, e.block_index_data_len_⟩

/-- The method `GetFilterData`. -/
def GetFilterData (e : MiniRunIndexEntry) : Slice :=
  ⟨e.raw_data_.mem, e.raw_data_.data_ + 16 + e.block_index_data_len_, e.filter_data_len_⟩

/-- The method `GetSegmentNumber`. -/
def GetSegmentNumber (e : MiniRunIndexEntry) : Nat := e.segment_number_

/-- The method `GetRunNumberWithinSegment`. -/
def GetRunNumberWithinSegment (e : MiniRunIndexEntry) : Nat := e.run_no_within_segment_

/-- The method `GetRawData`. -/
def GetRawData (e : MiniRunIndexEntry) : Slice := e.raw_data_

/-- The static method `EncodeMiniRunIndexEntry`; the result is the content of `*buf`
after the call. -/
def EncodeMiniRunIndexEntry (seg_no run_no : Nat) (block_index_data filter_data : Slice)
    (buf : List Byte) : List Byte :=
  let buf := PutFixed32 buf seg_no
  let buf := PutFixed32 buf run_no
  let buf := PutFixed32 buf block_index_data.size_
  let buf := PutFixed32 buf filter_data.size_
  let buf := buf ++ block_index_data.toBytes
  buf ++ filter_data.toBytes

end MiniRunIndexEntry

/-! ## Abnormal endings -/

/-- The ways an execution ends without returning: a failed `assert`, the signed
overflow of an `int` counter, the `std::length_error` of a `resize` beyond the
maximal size, the use of a null pointer. -/
inductive Fault
  | assertFailed
  | signedOverflow
  | lengthError
  | nullDeref
deriving DecidableEq, Repr

/-- How a call ends: it returns, or it is aborted by a fault. -/
inductive Exit
  | returned
  | aborted (f : Fault)
deriving DecidableEq, Repr

/-! ## `LeafIndexEntry` -/

/-- The enumeration `LeafIndexEntry::TraversalOrder`. -/
inductive TraversalOrder
  | forward
  | backward
deriving DecidableEq, Repr

/-- The class `LeafIndexEntry` of `leaf_store.h`. -/
structure LeafIndexEntry where
  raw_data_ : Slice
deriving DecidableEq, Repr

/-- The outcome of one execution of a loop body: the loop is left with an exit, or the
next iteration starts from the pointer `p`. -/
inductive LoopStep (σ : Type)
  | done (st : σ) (exit : Exit)
  | next (p : Nat) (st : σ)

namespace LeafIndexEntry

/-- The constructor `LeafIndexEntry(const Slice &data)`; `none` is the failure of
`assert(raw_data_.size() >= 4)`. -/
def ctor (data : Slice) : Option LeafIndexEntry :=
  if 4 ≤ data.size_ then some ⟨data⟩ else none

/-- The method `GetRawData`. -/
def GetRawData (self : LeafIndexEntry) : Slice := self.raw_data_

/-- The method `GetNumMiniRuns`. -/
def GetNumMiniRuns (self : LeafIndexEntry) : Nat :=
  if self.raw_data_.size_ = 0 then 0
  else DecodeFixed32 self.raw_data_.mem (self.raw_data_.data_ + self.raw_data_.size_ - 4)

/-- The body of the loop of the backward branch of `ForEachMiniRunIndexEntry`, at the
counter value `i` and the pointer `p`. The two statements `p -= n; assert(p >= data)`
are written as a comparison before the subtraction. The second argument of
`processor` is `num_entries - i` in `uint32_t` arithmetic. -/
def backwardBody {σ : Type} (processor : MiniRunIndexEntry → Nat → σ → Bool × σ)
    (raw : Slice) (num_entries i p : Nat) (st : σ) : LoopStep σ :=
  if p < raw.data_ + 4 then .done st (.aborted .assertFailed) else
  let p := p - 4
  let entry_size := DecodeFixed32 raw.mem p
  if p < raw.data_ + entry_size then .done st (.aborted .assertFailed) else
  let p := p - entry_size
  match MiniRunIndexEntry.ctor ⟨raw.mem, p, entry_size⟩ with
  | none => .done st (.aborted .assertFailed)
  | some index_entry =>
    let r := processor index_entry ((num_entries + 4294967296 - i) % 4294967296) st
    if r.1 then .done r.2 .returned else .next p r.2

/-- The loop `for (int i = num_entries - 1; i >= 0; ++i)` of the backward branch. The
first argument is `INT_MAX - i`: the counter only grows, so the condition `i >= 0`
never ends the loop, and `++i` at `INT_MAX` is a signed overflow. -/
def backwardLoop {σ : Type} (processor : MiniRunIndexEntry → Nat → σ → Bool × σ)
    (raw : Slice) (num_entries : Nat) : Nat → Nat → σ → σ × Exit
  | 0, p, st =>
    match backwardBody processor raw num_entries 2147483647 p st with
    | .done st exit => (st, exit)
    | .next _ st => (st, .aborted .signedOverflow)
  | k + 1, p, st =>
    match backwardBody processor raw num_entries (2147483647 - (k + 1)) p st with
    | .done st exit => (st, exit)
    | .next p st => backwardLoop processor raw num_entries k p st

/-- The first loop of the forward branch, `for (int i = num_entries - 1; i >= 0; --i)`,
which fills the vector `entries`. The first argument is `i + 1`, the number of
iterations left. -/
def forwardSweep (raw : Slice) :
    Nat → Nat → List MiniRunIndexEntry → List MiniRunIndexEntry × Exit
  | 0, _, entries => (entries, .returned)
  | n + 1, p, entries =>
    if p < raw.data_ + 4 then (entries, .aborted .assertFailed) else
    let p := p - 4
    let entry_size := DecodeFixed32 raw.mem p
    if p < raw.data_ + entry_size then (entries, .aborted .assertFailed) else
    let p := p - entry_size
    match MiniRunIndexEntry.ctor ⟨raw.mem, p, entry_size⟩ with
    | none => (entries, .aborted .assertFailed)
    | some index_entry => forwardSweep raw n p (entries ++ [index_entry])

/-- The second loop of the forward branch, `for (int i = 0; i < entries.size(); ++i)`,
on the part of `entries` from position `i` on. -/
def forwardReplay {σ : Type} (processor : MiniRunIndexEntry → Nat → σ → Bool × σ) :
    List MiniRunIndexEntry → Nat → σ → σ × Exit
  | [], _, st => (st, .returned)
  | entry :: rest, i, st =>
    let r := processor entry (i % 4294967296) st
    if r.1 then (r.2, .returned)
    else if i = 2147483647 then (r.2, .aborted .signedOverflow)
    else forwardReplay processor rest (i + 1) r.2

/-- The method `ForEachMiniRunIndexEntry`. The state captured by `processor` is passed
in and out; the exit tells whether the call returned. The conversion of
`num_entries - 1` to `int` gives a negative counter from 2^31 on, and then no loop
body runs. -/
def ForEachMiniRunIndexEntry {σ : Type} (self : LeafIndexEntry)
    (processor : MiniRunIndexEntry → Nat → σ → Bool × σ) (order : TraversalOrder)
    (st : σ) : σ × Exit :=
  let num_entries := self.GetNumMiniRuns
  if num_entries = 0 then (st, .returned) else
  let p := self.raw_data_.data_ + self.raw_data_.size_ - 4
  match order with
  | .backward =>
    if 2147483648 ≤ num_entries - 1 then (st, .returned)
    else backwardLoop processor self.raw_data_ num_entries (2147483647 - (num_entries - 1)) p st
  | .forward =>
    let swept :=
      if 2147483648 ≤ num_entries - 1 then (([] : List MiniRunIndexEntry), Exit.returned)
      else forwardSweep self.raw_data_ num_entries p []
    match swept with
    | (entries, .returned) => forwardReplay processor entries 0 st
    | (_, .aborted f) => (st, .aborted f)

/-- The method `GetAllMiniRunIndexEntry`: the vector `res` and the exit of the call. -/
def GetAllMiniRunIndexEntry (self : LeafIndexEntry) (order : TraversalOrder) :
    List MiniRunIndexEntry × Exit :=
  self.ForEachMiniRunIndexEntry (fun entry _ res => (false, res ++ [entry])) order []

end LeafIndexEntry

/-! ## Status -/

/-- Modelled from the spec: the error kinds of `leveldb::Status` (`leveldb/status.h`
is not among the sources), as section 7 names them. -/
inductive Code
  | kNotFound
  | kCorruption
  | kNotSupported
  | kInvalidArgument
  | kIOError
deriving DecidableEq, Repr

/-- Modelled from the spec: a status that is not OK, an error kind with its message. -/
structure Failure where
  code : Code
  msg : String
deriving DecidableEq, Repr

/-- Modelled from the spec: `leveldb::Status`, OK or a failure. -/
inductive Status
  | OK
  | Error (f : Failure)
deriving DecidableEq, Repr

namespace Status

/-- The method `Status::ok`. -/
def ok : Status → Bool
  | .OK => true
  | .Error _ => false

/-- The factory `Status::NotFound`. -/
def NotFound (msg : String) : Status := .Error ⟨.kNotFound, msg⟩

/-- The factory `Status::Corruption`. -/
def Corruption (msg : String) : Status := .Error ⟨.kCorruption, msg⟩

/-- The factory `Status::InvalidArgument`. -/
def InvalidArgument (msg : String) : Status := .Error ⟨.kInvalidArgument, msg⟩

/-- The status is an InvalidArgument error. -/
def IsInvalidArgument : Status → Bool
  | .Error ⟨.kInvalidArgument, _⟩ => true
  | _ => false

/-- The status is a NotFound error. -/
def IsNotFound : Status → Bool
  | .Error ⟨.kNotFound, _⟩ => true
  | _ => false

end Status

/-! ## `LeafIndexEntryBuilder` -/

namespace LeafIndexEntryBuilder

/-- The static method `AppendMiniRunIndexEntry`. The result holds the returned status,
the content of `*buf` and `*new_entry` after the call. `buf->size() - 4` is computed in
`size_t`: on a buffer of one to three bytes it wraps around and `resize` throws. -/
def AppendMiniRunIndexEntry (base : LeafIndexEntry) (minirun_index_entry : MiniRunIndexEntry)
    (buf : List Byte) : Except Fault (Status × List Byte × LeafIndexEntry) :=
  let buf := buf ++ base.GetRawData.toBytes
  if 0 < buf.length ∧ buf.length < 4 then .error .lengthError else
  let buf := if buf.length ≠ 0 then buf.take (buf.length - 4) else buf
  let buf := buf ++ minirun_index_entry.GetRawData.toBytes
  let buf := PutFixed32 buf minirun_index_entry.GetRawData.size_
  let buf := PutFixed32 buf (base.GetNumMiniRuns + 1)
  match LeafIndexEntry.ctor (Slice.ofString buf) with
  | none => .error .assertFailed
  | some new_entry => .ok (Status.OK, buf, new_entry)

/-- The lambda `processor` of `ReplaceMiniRunRange`. Its captured state is the buffer
and the counter `new_num_entries`. -/
def ReplaceProcessor (start end_ : Nat) (replacement : MiniRunIndexEntry) :
    MiniRunIndexEntry → Nat → List Byte × Nat → Bool × (List Byte × Nat)
  | entry, idx, (buf, new_num_entries) =>
    if start ≤ idx ∧ idx ≤ end_ then
      if idx = start then
        let buf := buf ++ replacement.GetRawData.toBytes
        let buf := PutFixed32 buf replacement.GetRawData.size_
        (false, (buf, (new_num_entries + 1) % 4294967296))
      else (false, (buf, new_num_entries))
    else
      let buf := buf ++ entry.GetRawData.toBytes
      let buf := PutFixed32 buf replacement.GetRawData.size_
      (false, (buf, (new_num_entries + 1) % 4294967296))

/-- The static method `ReplaceMiniRunRange`. The arguments `buf` and `new_entry` are the
contents of `*buf` and `*new_entry` before the call, the result holds the returned
status and their contents after it. -/
def ReplaceMiniRunRange (base : LeafIndexEntry) (start end_ : Nat)
    (replacement : MiniRunIndexEntry) (buf : List Byte) (new_entry : LeafIndexEntry) :
    Except Fault (Status × List Byte × LeafIndexEntry) :=
  if start > base.GetNumMiniRuns ∨ end_ > base.GetNumMiniRuns then
    .ok (Status.InvalidArgument
      ("[start, end] not within bound of [0, " ++ toString base.GetNumMiniRuns ++ "]"),
      buf, new_entry)
  else
    match base.ForEachMiniRunIndexEntry (ReplaceProcessor start end_ replacement)
        .forward (([] : List Byte), 0) with
    | (_, .aborted f) => .error f
    | ((buf, _), .returned) =>
      let buf := PutFixed32 buf (base.GetNumMiniRuns + 1)
      match LeafIndexEntry.ctor (Slice.ofString buf) with
      | none => .error .assertFailed
      | some new_entry => .ok (Status.OK, buf, new_entry)

end LeafIndexEntryBuilder

/-! ## Collaborators of the read path -/

/-- Modelled from the spec: `leveldb::Comparator` (`leveldb/comparator.h` is not among
the sources), the three-way comparison `Compare`. -/
abbrev Comparator := List Byte → List Byte → Int

/-- Modelled from the spec: `leveldb::Iterator` (`leveldb/iterator.h` is not among the
sources), a cursor over the rows of an ordered source (section 6). The cursor is valid
while `pos` is the index of a row. -/
structure Iterator where
  rows : List (List Byte × List Byte)
  pos : Nat
deriving DecidableEq, Repr

namespace Iterator

/-- A fresh iterator over rows: not positioned. -/
def over (rows : List (List Byte × List Byte)) : Iterator := ⟨rows, rows.length⟩

/-- The method `Valid`. -/
def Valid (it : Iterator) : Bool := decide (it.pos < it.rows.length)

/-- The method `SeekToFirst`. -/
def SeekToFirst (it : Iterator) : Iterator := { it with pos := 0 }

/-- The method `Seek`: the first row at or past `target` in the order of the source. -/
def Seek (cmp : Comparator) (target : List Byte) (it : Iterator) : Iterator :=
  { it with pos := it.rows.findIdx (fun r => decide (0 ≤ cmp r.1 target)) }

/-- The method `Next`. -/
def Next (it : Iterator) : Iterator := { it with pos := it.pos + 1 }

/-- The method `key`. -/
def key (it : Iterator) : List Byte := (it.rows.getD it.pos ([], [])).1

/-- The method `value`. -/
def value (it : Iterator) : List Byte := (it.rows.getD it.pos ([], [])).2

end Iterator

/-- Modelled from the spec: `ValueType` of `db/dbformat.h`, the tag of an internal key. -/
inductive ValueType
  | kTypeDeletion
  | kTypeValue
deriving DecidableEq, Repr

/-- Modelled from the spec: `ParsedInternalKey` of `db/dbformat.h`: user key, sequence
number and tag. -/
structure ParsedInternalKey where
  user_key : List Byte
  sequence : Nat
  type : ValueType
deriving DecidableEq, Repr

/-- Modelled from the spec: `LookupKey` of `db/dbformat.h`: the user key for the seek
in the leaf index and the internal key for the filter and the mini-runs. -/
structure LookupKey where
  user_key : List Byte
  internal_key : List Byte
deriving DecidableEq, Repr

/-- Modelled from the spec: the segment manager of section 6 (`segment.h` is not among
the sources): `OpenSegment`, `Segment::OpenMiniRun` and `MiniRun::NewIterator`. A call
that fails gives its status, which is not OK. -/
structure SegmentManager (Segment MiniRun : Type) where
  OpenSegment : Nat → Except Failure Segment
  OpenMiniRun : Segment → Nat → Slice → Except Failure MiniRun
  NewIterator : MiniRun → Iterator

/-- Modelled from the spec: the fields of `leveldb::Options` the read path uses: the
comparator of the engine and the optional filter policy, given by what
`FilterBlockReader(policy, filter).KeyMayMatch(0, key)` answers. -/
structure Options where
  comparator : Comparator
  filter_policy : Option (Slice → List Byte → Bool)

/-- Modelled from the spec: the leaf index, an ordered map from leaf separators to
`LeafIndexEntry` byte strings (section 6): its rows in key order and its comparator. -/
structure DB where
  rows : List (List Byte × List Byte)
  cmp : Comparator

/-- The method `DB::NewIterator` of the leaf index. -/
def DB.NewIterator (db : DB) : Iterator := Iterator.over db.rows

/-- One row put at its place among rows in comparator order, before the rows that do
not come before it. -/
def insertRow (cmp : Comparator) (r : List Byte × List Byte) :
    List (List Byte × List Byte) → List (List Byte × List Byte)
  | [] => [r]
  | x :: xs => if cmp r.1 x.1 ≤ 0 then r :: x :: xs else x :: insertRow cmp r xs

/-- Modelled from the spec: `NewMergingIterator` of `table/merger.h` is not among the
sources; it yields the rows of its children in comparator order (section 4.4.2). -/
def NewMergingIterator (cmp : Comparator) (children : List Iterator) : Iterator :=
  Iterator.over ((children.map (fun c => c.rows)).flatten.foldr (insertRow cmp) [])

/-- A call to a collaborator, as the read path makes it. -/
inductive Call
  | KeyMayMatch (filter : Slice) (key : List Byte)
  | OpenSegment (seg_no : Nat)
  | OpenMiniRun (run_no : Nat) (index_block : Slice)
deriving DecidableEq, Repr

/-- The class `LeafStore` with its four fields. `ParseInternalKey` of `db/dbformat.h`
is not among the sources and is taken as a parameter. -/
structure LeafStore (Segment MiniRun : Type) where
  seg_manager_ : SegmentManager Segment MiniRun
  leaf_index_ : DB
  options_ : Options
  user_cmp_ : Comparator
  ParseInternalKey : List Byte → Option ParsedInternalKey

/-! ## `LeafStore::Get` -/

/-- The variables the lambda of `Get` captures by reference: the status `s` and the
string `*value`; `calls` records the calls made to the collaborators, in order. -/
structure GetState where
  s : Status
  value : List Byte
  calls : List Call
deriving DecidableEq, Repr

namespace LeafStore

variable {Segment MiniRun : Type}

/-- The lambda `processor` of `Get`. -/
def GetProcessor (self : LeafStore Segment MiniRun) (key : LookupKey) :
    MiniRunIndexEntry → Nat → GetState → Bool × GetState
  | minirun_index_entry, _, st =>
    let probe : Bool × GetState :=
      match self.options_.filter_policy with
      | some policy =>
        (policy minirun_index_entry.GetFilterData key.internal_key,
          { st with calls := st.calls ++
              [Call.KeyMayMatch minirun_index_entry.GetFilterData key.internal_key] })
      | none => (true, st)
    if probe.1 = false then (false, probe.2) else
    let st := probe.2
    let seg_no := minirun_index_entry.GetSegmentNumber
    let st := { st with calls := st.calls ++ [Call.OpenSegment seg_no] }
    match self.seg_manager_.OpenSegment seg_no with
    | .error f => (true, { st with s := .Error f })
    | .ok seg =>
      let st := { st with s := .OK }
      let index_block := minirun_index_entry.GetBlockIndexData
      let run_no := minirun_index_entry.GetRunNumberWithinSegment
      let st := { st with calls := st.calls ++ [Call.OpenMiniRun run_no index_block] }
      match self.seg_manager_.OpenMiniRun seg run_no index_block with
      | .error f => (true, { st with s := .Error f })
      | .ok run =>
        let st := { st with s := .OK }
        let iter := (self.seg_manager_.NewIterator run).Seek self.options_.comparator
          key.internal_key
        if iter.Valid then
          match self.ParseInternalKey iter.key with
          | none => (true, { st with s := Status.Corruption "key corruption" })
          | some parsed_key =>
            if self.user_cmp_ parsed_key.user_key key.user_key = 0 then
              if parsed_key.type = ValueType.kTypeValue then
                (true, { st with value := iter.value, s := .OK })
              else
                (true, { st with s := Status.NotFound "" })
            else (false, st)
        else (false, st)

/-- The method `Get`. The argument `value` is the content of `*value` before the call;
the result holds the returned status in `s`, the content of `*value` after the call
and the calls made, together with the exit of the call. -/
def Get (self : LeafStore Segment MiniRun) (key : LookupKey) (value : List Byte) :
    GetState × Exit :=
  let it := self.leaf_index_.NewIterator.Seek self.leaf_index_.cmp key.user_key
  if it.Valid = false then (⟨Status.NotFound "", value, []⟩, .returned) else
  let index_data := Slice.ofString it.value
  match LeafIndexEntry.ctor index_data with
  | none => (⟨.OK, value, []⟩, .aborted .assertFailed)
  | some index_entry =>
    index_entry.ForEachMiniRunIndexEntry (self.GetProcessor key) .backward ⟨.OK, value, []⟩

/-! ## `LeafStore::NewIteratorForLeaf` -/

/-- The variables the lambda of `NewIteratorForLeaf` captures by reference: the status
`s` and the vectors `iters` and `runs`; `calls` records the calls made to the
collaborators, in order. -/
structure LeafState (MiniRun : Type) where
  s : Status
  iters : List Iterator
  runs : List MiniRun
  calls : List Call

/-- The lambda `processor` of `NewIteratorForLeaf`. Its second parameter is named
`run_no` in the source, and that parameter is what `OpenMiniRun` receives. -/
def NewIteratorForLeafProcessor (self : LeafStore Segment MiniRun)
    (start_minirun_no end_minirun_no : Nat) :
    MiniRunIndexEntry → Nat → LeafState MiniRun → Bool × LeafState MiniRun
  | minirun_index_entry, run_no, st =>
    if run_no > end_minirun_no then (true, st) else
    if start_minirun_no ≤ run_no ∧ run_no ≤ end_minirun_no then
      let seg_no := minirun_index_entry.GetSegmentNumber
      let st := { st with calls := st.calls ++ [Call.OpenSegment seg_no] }
      match self.seg_manager_.OpenSegment seg_no with
      | .error f => (true, { st with s := .Error f })
      | .ok seg =>
        let st := { st with s := .OK }
        let index_block := minirun_index_entry.GetBlockIndexData
        let st := { st with calls := st.calls ++ [Call.OpenMiniRun run_no index_block] }
        match self.seg_manager_.OpenMiniRun seg run_no index_block with
        | .error f => (true, { st with s := .Error f })
        | .ok run =>
          let st := { st with s := .OK }
          let iter := self.seg_manager_.NewIterator run
          (false, { st with iters := st.iters ++ [iter], runs := st.runs ++ [run] })
    else (false, st)

/-- What `NewIteratorForLeaf` hands back: the returned pointer (`none` is `nullptr`),
the status written to the out-parameter `s`, and the calls made. -/
structure LeafResult where
  iter : Option Iterator
  s : Status
  calls : List Call
deriving DecidableEq, Repr

/-- The method `NewIteratorForLeaf`. -/
def NewIteratorForLeaf (self : LeafStore Segment MiniRun) (leaf_index_entry : LeafIndexEntry)
    (start_minirun_no end_minirun_no : Nat) : LeafResult × Exit :=
  match leaf_index_entry.ForEachMiniRunIndexEntry
      (self.NewIteratorForLeafProcessor start_minirun_no end_minirun_no) .forward
      (⟨.OK, [], [], []⟩ : LeafState MiniRun) with
  | (st, .aborted f) => (⟨none, st.s, st.calls⟩, .aborted f)
  | (st, .returned) =>
    if st.s.ok then (⟨none, st.s, st.calls⟩, .returned)
    else (⟨some (NewMergingIterator self.options_.comparator st.iters), st.s, st.calls⟩,
      .returned)

end LeafStore

/-! ## `LeafStore::LeafStoreIterator` -/

/-- The class `LeafStoreIterator` with its fields `status_`, `leaf_index_it_` and
`leaf_it_` (`none` is `nullptr`); the store `store_` is passed to the methods. -/
structure LeafStoreIterator where
  status_ : Status
  leaf_index_it_ : Iterator
  leaf_it_ : Option Iterator
deriving DecidableEq, Repr

namespace LeafStoreIterator

variable {Segment MiniRun : Type}

/-- The method `Valid`. -/
def Valid (it : LeafStoreIterator) : Bool :=
  it.status_.ok
    && (match it.leaf_it_ with
        | some leaf_it => leaf_it.Valid
        | none => false)
    && it.leaf_index_it_.Valid

/-- The private method `OpenLeafIterator`, with the default range of
`NewIteratorForLeaf`. -/
def OpenLeafIterator (store_ : LeafStore Segment MiniRun) (it : LeafStoreIterator) :
    Except Fault LeafStoreIterator :=
  if it.leaf_index_it_.Valid then
    match LeafIndexEntry.ctor (Slice.ofString it.leaf_index_it_.value) with
    | none => .error .assertFailed
    | some index_entry =>
      match store_.NewIteratorForLeaf index_entry 0 4294967295 with
      | (_, .aborted f) => .error f
      | (r, .returned) => .ok { it with leaf_it_ := r.iter, status_ := r.s }
  else .ok it

/-- The method `SeekToFirst`. -/
def SeekToFirst (store_ : LeafStore Segment MiniRun) (it : LeafStoreIterator) :
    Except Fault LeafStoreIterator :=
  let it := if it.status_.ok = false then { it with status_ := Status.OK } else it
  let it := { it with leaf_index_it_ := it.leaf_index_it_.SeekToFirst }
  match OpenLeafIterator store_ it with
  | .error f => .error f
  | .ok it =>
    if it.status_.ok then
      match it.leaf_it_ with
      | none => .error .nullDeref
      | some leaf_it => .ok { it with leaf_it_ := some leaf_it.SeekToFirst }
    else .ok it

/-- The method `Next`. -/
def Next (store_ : LeafStore Segment MiniRun) (it : LeafStoreIterator) :
    Except Fault LeafStoreIterator :=
  if it.Valid = false then .error .assertFailed else
  match it.leaf_it_ with
  | none => .error .nullDeref
  | some leaf_it =>
    let leaf_it := leaf_it.Next
    let it := { it with leaf_it_ := some leaf_it }
    if leaf_it.Valid = false then
      let it := { it with leaf_index_it_ := it.leaf_index_it_.Next }
      match OpenLeafIterator store_ it with
      | .error f => .error f
      | .ok it =>
        if it.status_.ok then
          match it.leaf_it_ with
          | none => .error .nullDeref
          | some leaf_it => .ok { it with leaf_it_ := some leaf_it.SeekToFirst }
        else .ok it
    else .ok it

end LeafStoreIterator

/-- The method `LeafStore::NewIterator`. -/
def LeafStore.NewIterator {Segment MiniRun : Type} (self : LeafStore Segment MiniRun) :
    LeafStoreIterator :=
  { status_ := .OK, leaf_index_it_ := self.leaf_index_.NewIterator, leaf_it_ := none }

/-! ## The leaf entry layout of section 4.2 -/

/-- Section 4.2: the records of a leaf entry, each entry followed by the 32-bit word
of its length, oldest entry first. -/
def leafRecords : List (List Byte) → List Byte
  | [] => []
  | b :: bs => b ++ EncodeFixed32 b.length ++ leafRecords bs

/-- Section 4.2: the encoding of a leaf entry, its records followed by the count. -/
def encodeLeaf (bs : List (List Byte)) : List Byte :=
  leafRecords bs ++ EncodeFixed32 bs.length

/-- The objects of the entries of a leaf whose records start at offset `off` of the
storage `mem`, oldest first: every entry is read in place. -/
def entriesAt (mem : List Byte) : Nat → List (List Byte) → List MiniRunIndexEntry
  | _, [] => []
  | off, b :: bs =>
    MiniRunIndexEntry.read ⟨mem, off, b.length⟩ :: entriesAt mem (off + (b.length + 4)) bs

/-- A leaf entry is well formed and encodes the entries with the bytes `bs`, oldest
first: its slice lies within its storage and views `encodeLeaf bs`, and every entry
has at least the 16 bytes of its header and a length that fits 32 bits, as does the
count. -/
structure LeafIndexEntry.Encodes (leaf : LeafIndexEntry) (bs : List (List Byte)) : Prop where
  inBounds : leaf.raw_data_.InBounds
  bytes : leaf.raw_data_.toBytes = encodeLeaf bs
  entries : ∀ b ∈ bs, 16 ≤ b.length ∧ b.length < 4294967296
  count : bs.length < 4294967296

/-- The entry objects a traversal of the leaf entry builds, oldest first. -/
def LeafIndexEntry.entries (self : LeafIndexEntry) (bs : List (List Byte)) :
    List MiniRunIndexEntry :=
  entriesAt self.raw_data_.mem self.raw_data_.data_ bs

/-- The leaf entry over a whole string. -/
def leafOf (buf : List Byte) : LeafIndexEntry := ⟨Slice.ofString buf⟩

/-- The entry object over a string of entry bytes. -/
def entryOf (b : List Byte) : MiniRunIndexEntry := MiniRunIndexEntry.read (Slice.ofString b)

/-! ## The calls of a traversal -/

/-- The calls of a backward traversal on a list of entries, newest first, from the
counter value `i` on: the state after the last call and whether that call asked to
stop. -/
def feedBackward {σ : Type} (processor : MiniRunIndexEntry → Nat → σ → Bool × σ)
    (num_entries : Nat) : Nat → List MiniRunIndexEntry → σ → Bool × σ
  | _, [], st => (false, st)
  | i, e :: es, st =>
    let r := processor e ((num_entries + 4294967296 - i) % 4294967296) st
    if r.1 then (true, r.2) else feedBackward processor num_entries (i + 1) es r.2

/-- How a backward traversal of a well-formed leaf entry ends after its calls: it
returns when the last call asked to stop, and otherwise the next iteration fails the
assertion on the pointer. -/
def backwardEnd {σ : Type} : Bool × σ → σ × Exit
  | (true, st) => (st, Exit.returned)
  | (false, st) => (st, Exit.aborted Fault.assertFailed)

/-- A processor that never stops and records the bytes of the entry and the index of
every call. -/
def recordCalls : MiniRunIndexEntry → Nat → List (List Byte × Nat) →
    Bool × List (List Byte × Nat) :=
  fun entry idx log => (false, log ++ [(entry.GetRawData.toBytes, idx)])

/-! ## What the lambda of `ReplaceMiniRunRange` writes -/

/-- The records the lambda of `ReplaceMiniRunRange` writes for a list of entries outside
the range, in order: the bytes of each entry followed by the length word the lambda
puts after it. -/
def keptRecords (replacement : MiniRunIndexEntry) : List MiniRunIndexEntry → List Byte
  | [] => []
  | x :: xs =>
    PutFixed32 x.GetRawData.toBytes replacement.GetRawData.size_ ++ keptRecords replacement xs

/-- The bytes the lambda of `ReplaceMiniRunRange` appends over the calls on a list of
entries with the indices `i`, `i + 1`, ... -/
def replaceWrites (start end_ : Nat) (replacement : MiniRunIndexEntry) :
    Nat → List MiniRunIndexEntry → List Byte
  | _, [] => []
  | i, x :: xs =>
    (LeafIndexEntryBuilder.ReplaceProcessor start end_ replacement x i ([], 0)).2.1
      ++ replaceWrites start end_ replacement (i + 1) xs

/-! ## Predicates on the mini-runs of a lookup -/

/-- The cursor of the leaf index after the seek of the user key of the lookup. -/
def LeafStore.seekLeaf {Segment MiniRun : Type} (self : LeafStore Segment MiniRun)
    (key : LookupKey) : Iterator :=
  self.leaf_index_.NewIterator.Seek self.leaf_index_.cmp key.user_key

/-- The iterator of a mini-run after the seek of the internal key of the lookup. -/
def LeafStore.seekRun {Segment MiniRun : Type} (self : LeafStore Segment MiniRun)
    (key : LookupKey) (run : MiniRun) : Iterator :=
  (self.seg_manager_.NewIterator run).Seek self.options_.comparator key.internal_key

/-- The filter of the entry reports a definite miss for the internal key of the lookup:
a filter policy is configured and `KeyMayMatch` answers false. -/
def LeafStore.FilterMiss {Segment MiniRun : Type} (self : LeafStore Segment MiniRun)
    (key : LookupKey) (x : MiniRunIndexEntry) : Prop :=
  ∃ policy, self.options_.filter_policy = some policy
    ∧ policy x.GetFilterData key.internal_key = false

/-- The entry reaches the open step of `Get`: no configured filter reports a miss. -/
def LeafStore.FilterPass {Segment MiniRun : Type} (self : LeafStore Segment MiniRun)
    (key : LookupKey) (x : MiniRunIndexEntry) : Prop :=
  ∀ policy, self.options_.filter_policy = some policy
    → policy x.GetFilterData key.internal_key = true

/-- The mini-run of the entry opens as `run`: the segment opens and the mini-run opens
in it, under the segment number, run number and block index of the entry. -/
def LeafStore.Opens {Segment MiniRun : Type} (self : LeafStore Segment MiniRun)
    (x : MiniRunIndexEntry) (run : MiniRun) : Prop :=
  ∃ seg, self.seg_manager_.OpenSegment x.GetSegmentNumber = .ok seg
    ∧ self.seg_manager_.OpenMiniRun seg x.GetRunNumberWithinSegment x.GetBlockIndexData = .ok run

/-- The mini-run of the entry yields nothing for the lookup: its filter reports a miss,
or it opens and the seek of the internal key is not positioned or is positioned on a
key that parses and has another user key. -/
def LeafStore.Skips {Segment MiniRun : Type} (self : LeafStore Segment MiniRun)
    (key : LookupKey) (x : MiniRunIndexEntry) : Prop :=
  self.FilterMiss key x
    ∨ ∃ run, self.Opens x run
        ∧ ((self.seekRun key run).Valid = false
          ∨ ∃ pk, (self.seekRun key run).Valid = true
              ∧ self.ParseInternalKey (self.seekRun key run).key = some pk
              ∧ self.user_cmp_ pk.user_key key.user_key ≠ 0)

/-- The mini-run of the entry holds the user key of the lookup: it passes the filter,
it opens as `run`, and the seek of the internal key is positioned on a key that parses
to `pk`, whose user key equals the user key of the lookup. -/
def LeafStore.Hits {Segment MiniRun : Type} (self : LeafStore Segment MiniRun)
    (key : LookupKey) (x : MiniRunIndexEntry) (run : MiniRun) (pk : ParsedInternalKey) : Prop :=
  self.FilterPass key x ∧ self.Opens x run
    ∧ (self.seekRun key run).Valid = true
    ∧ self.ParseInternalKey (self.seekRun key run).key = some pk
    ∧ self.user_cmp_ pk.user_key key.user_key = 0

/-- The open step of the entry fails with `f`: the segment does not open, or it opens
and the mini-run does not. -/
def LeafStore.OpenFails {Segment MiniRun : Type} (self : LeafStore Segment MiniRun)
    (x : MiniRunIndexEntry) (f : Failure) : Prop :=
  self.seg_manager_.OpenSegment x.GetSegmentNumber = .error f
    ∨ ∃ seg, self.seg_manager_.OpenSegment x.GetSegmentNumber = .ok seg
        ∧ self.seg_manager_.OpenMiniRun seg x.GetRunNumberWithinSegment x.GetBlockIndexData
            = .error f

/-- The filter probe `Get` makes for an entry: one call when a policy is configured. -/
def LeafStore.probeCalls {Segment MiniRun : Type} (self : LeafStore Segment MiniRun)
    (key : LookupKey) (x : MiniRunIndexEntry) : List Call :=
  match self.options_.filter_policy with
  | some _ => [Call.KeyMayMatch x.GetFilterData key.internal_key]
  | none => []

/-- The open calls `Get` makes for an entry: the segment, and the mini-run when the
segment opened. -/
def LeafStore.openCalls {Segment MiniRun : Type} (self : LeafStore Segment MiniRun)
    (x : MiniRunIndexEntry) : List Call :=
  match self.seg_manager_.OpenSegment x.GetSegmentNumber with
  | .error _ => [Call.OpenSegment x.GetSegmentNumber]
  | .ok _ => [Call.OpenSegment x.GetSegmentNumber,
      Call.OpenMiniRun x.GetRunNumberWithinSegment x.GetBlockIndexData]

/-! ## Concrete entries and leaf entries -/

/-- A slice of 16 bytes whose header announces a block index of one byte: segment 7,
run 3, block index length 1, filter length 0. -/
def overrunSlice : Slice :=
  Slice.ofString (EncodeFixed32 7 ++ EncodeFixed32 3 ++ EncodeFixed32 1 ++ EncodeFixed32 0)

/-- The bytes of a mini-run entry: segment 7, run 3, block index `[1, 2]`, filter `[9]`
(19 bytes). -/
def entryA : List Byte :=
  MiniRunIndexEntry.EncodeMiniRunIndexEntry 7 3 (Slice.ofString [1, 2]) (Slice.ofString [9]) []

/-- The bytes of a mini-run entry: segment 8, run 5, empty block index and filter
(16 bytes). -/
def entryB : List Byte :=
  MiniRunIndexEntry.EncodeMiniRunIndexEntry 8 5 (Slice.ofString []) (Slice.ofString []) []

/-- The bytes of a mini-run entry: segment 9, run 1, block index `[4]`, empty filter
(17 bytes). -/
def entryC : List Byte :=
  MiniRunIndexEntry.EncodeMiniRunIndexEntry 9 1 (Slice.ofString [4]) (Slice.ofString []) []

/-- The bytes of a mini-run entry: segment 10, run 2, block index `[5, 6]`, empty filter
(18 bytes). -/
def entryD : List Byte :=
  MiniRunIndexEntry.EncodeMiniRunIndexEntry 10 2 (Slice.ofString [5, 6]) (Slice.ofString []) []

/-- The empty leaf of section 4.2: four zero bytes. -/
def leafE0 : LeafIndexEntry := leafOf [0, 0, 0, 0]

/-- The buffer `AppendMiniRunIndexEntry` writes into an empty `buf`, when it returns. -/
def appended (base : LeafIndexEntry) (e : List Byte) : Option LeafIndexEntry :=
  match LeafIndexEntryBuilder.AppendMiniRunIndexEntry base (entryOf e) [] with
  | .ok (_, _, new_entry) => some new_entry
  | .error _ => none

/-- The buffer `ReplaceMiniRunRange` writes when it returns OK. -/
def replaced (base : LeafIndexEntry) (start end_ : Nat) (r : List Byte) : Option LeafIndexEntry :=
  match LeafIndexEntryBuilder.ReplaceMiniRunRange base start end_ (entryOf r) [] leafE0 with
  | .ok (Status.OK, _, new_entry) => some new_entry
  | _ => none

/-- Scenario 4 of section 8: E1 = append(E0, M_a), E2 = append(E1, M_b),
E3 = replace_range(E2, 0, 1, M_c), with `entryA`, `entryB`, `entryC` for M_a, M_b, M_c. -/
def scenarioE3 : Option LeafIndexEntry :=
  ((appended leafE0 entryA).bind (fun E1 => appended E1 entryB)).bind
    (fun E2 => replaced E2 0 1 entryC)

/-! ## Concrete stores -/

/-- The bytewise three-way comparison of two keys. -/
def bytewiseCompare : Comparator
  | [], [] => 0
  | [], _ :: _ => -1
  | _ :: _, [] => 1
  | a :: as, b :: bs => if a < b then -1 else if b < a then 1 else bytewiseCompare as bs

/-- The internal keys of the concrete store: the user key followed by one tag byte, 1
for VALUE and 0 for DELETION. -/
def demoParseInternalKey (k : List Byte) : Option ParsedInternalKey :=
  match k.getLast? with
  | some 1 => some ⟨k.dropLast, 0, .kTypeValue⟩
  | some 0 => some ⟨k.dropLast, 0, .kTypeDeletion⟩
  | _ => none

/-- The comparator of the concrete store orders internal keys by their user key. -/
def demoInternalCompare : Comparator := fun a b => bytewiseCompare a.dropLast b.dropLast

/-- The rows of a mini-run or of the leaf index. -/
abbrev Rows := List (List Byte × List Byte)

/-- A segment manager over a table of mini-runs, each under its segment number and its
run number within the segment. A segment opens when the table has a run of it. -/
def demoSegmentManager (runs : List ((Nat × Nat) × Rows)) : SegmentManager Nat Rows where
  OpenSegment seg_no :=
    if runs.any (fun r => r.1.1 == seg_no) then .ok seg_no
    else .error ⟨.kIOError, "no such segment"⟩
  OpenMiniRun seg run_no _ :=
    match runs.lookup (seg, run_no) with
    | some rows => .ok rows
    | none => .error ⟨.kIOError, "no such run"⟩
  NewIterator rows := Iterator.over rows

/-- A store over a table of mini-runs and the rows of a leaf index. -/
def demoStore (runs : List ((Nat × Nat) × Rows)) (leaves : Rows)
    (filter_policy : Option (Slice → List Byte → Bool)) : LeafStore Nat Rows where
  seg_manager_ := demoSegmentManager runs
  leaf_index_ := ⟨leaves, bytewiseCompare⟩
  options_ := ⟨demoInternalCompare, filter_policy⟩
  user_cmp_ := bytewiseCompare
  ParseInternalKey := demoParseInternalKey

/-- The bytes of the index entry of the mini-run `run` of segment `seg`, with an empty
block index and an empty filter. -/
def runEntry (seg run : Nat) : List Byte :=
  MiniRunIndexEntry.EncodeMiniRunIndexEntry seg run (Slice.ofString []) (Slice.ofString []) []

/-- The lookup key of the user key `k` in the concrete store. -/
def demoLookup (k : List Byte) : LookupKey := ⟨k, k ++ [1]⟩

/-- The mini-runs of scenarios 2 and 3 of section 8, in segment 1: run 0 holds the key
`k` (byte 107) with the value `1` (byte 49), run 1 holds a tombstone for `k`, run 2
holds `k` with the value `3` (byte 51). -/
def scenarioRuns : List ((Nat × Nat) × Rows) :=
  [((1, 0), [([107, 1], [49])]), ((1, 1), [([107, 0], [])]), ((1, 2), [([107, 1], [51])])]

/-- The store of scenario 2: one leaf under the separator `z` (byte 122) with the runs
0, 1 and 2 appended in that order. -/
def scenarioStore2 : LeafStore Nat Rows :=
  demoStore scenarioRuns [([122], encodeLeaf [runEntry 1 0, runEntry 1 1, runEntry 1 2])] none

/-- The store of scenario 3: as scenario 2 without run 2. -/
def scenarioStore3 : LeafStore Nat Rows :=
  demoStore scenarioRuns [([122], encodeLeaf [runEntry 1 0, runEntry 1 1])] none

/-- A filter policy that reports a definite miss for every key. -/
def rejectAll : Slice → List Byte → Bool := fun _ _ => false

/-- A filter policy that reports a definite miss exactly on the filter bytes `[0]`. -/
def tagFilter : Slice → List Byte → Bool := fun filter _ => filter.toBytes != [0]

/-- The bytes of an index entry for run 0 of segment 5, which the concrete segment
manager does not have, with the filter `[1]`. -/
def failEntry : List Byte :=
  MiniRunIndexEntry.EncodeMiniRunIndexEntry 5 0 (Slice.ofString []) (Slice.ofString [1]) []

/-- The bytes of an index entry for run 2 of segment 1 with the filter `[0]`, which
`tagFilter` excludes. -/
def missEntry : List Byte :=
  MiniRunIndexEntry.EncodeMiniRunIndexEntry 1 2 (Slice.ofString []) (Slice.ofString [0]) []

/-- A leaf entry with run 0 of segment 1, then `failEntry`, then `missEntry`. -/
def failLeaf : List Byte := encodeLeaf [runEntry 1 0, failEntry, missEntry]

/-- A store with the filter policy `tagFilter` whose single leaf is `failLeaf`. -/
def failStore : LeafStore Nat Rows := demoStore scenarioRuns [([122], failLeaf)] (some tagFilter)

/-- A store whose single leaf is the empty leaf of four zero bytes. -/
def emptyLeafStore : LeafStore Nat Rows := demoStore scenarioRuns [([122], [0, 0, 0, 0])] none

/-- A store whose single leaf has one mini-run, which holds the key `x` (byte 120)
alone. -/
def otherKeyStore : LeafStore Nat Rows :=
  demoStore [((2, 0), [([120, 1], [57])])] [([122], encodeLeaf [runEntry 2 0])] none

/-- The store of scenarios 1 and 5 of section 8: the leaf under the separator `m`
(byte 109) has the run with `a` and `m`, the leaf under `z` has the run with `x`. -/
def twoLeafStore : LeafStore Nat Rows :=
  demoStore [((1, 0), [([97, 1], [49]), ([109, 1], [50])]), ((2, 0), [([120, 1], [57])])]
    [([109], encodeLeaf [runEntry 1 0]), ([122], encodeLeaf [runEntry 2 0])] none

/-- A store with no leaf. -/
def noLeafStore : LeafStore Nat Rows := demoStore [] [] none

/-- The fault that aborted a call, if one did. -/
def faultOf {α : Type} : Except Fault α → Option Fault
  | .error f => some f
  | .ok _ => none

/-! # Theorems -/

/-! ## Fixed-width integers -/

theorem DecodeFixed32_append_left (a l : List Byte) (k : Nat) :
    DecodeFixed32 (a ++ l) (a.length + k) = DecodeFixed32 l k := by
  simp only [DecodeFixed32, List.getD_eq_getElem?_getD]
  have h : ∀ j, (a ++ l)[a.length + k + j]? = l[k + j]? := by
    intro j
    rw [List.getElem?_append_right (by omega)]
    congr 1
    omega
  have h0 := h 0
  simp only [Nat.add_zero] at h0
  rw [h0, h 1, h 2, h 3]

theorem DecodeFixed32_EncodeFixed32 (v : Nat) (c : List Byte) :
    DecodeFixed32 (EncodeFixed32 v ++ c) 0 = v % 4294967296 := by
  simp [DecodeFixed32, EncodeFixed32, byteOf]
  omega

theorem DecodeFixed32_at (a c : List Byte) (v : Nat) :
    DecodeFixed32 (a ++ (EncodeFixed32 v ++ c)) a.length = v % 4294967296 := by
  have h := DecodeFixed32_append_left a (EncodeFixed32 v ++ c) 0
  rw [Nat.add_zero] at h
  rw [h, DecodeFixed32_EncodeFixed32]

theorem EncodeFixed32_length (v : Nat) : (EncodeFixed32 v).length = 4 := rfl

theorem DecodeFixed32_append_right (l c : List Byte) (k : Nat) (h : k + 4 ≤ l.length) :
    DecodeFixed32 (l ++ c) k = DecodeFixed32 l k := by
  simp only [DecodeFixed32, List.getD_eq_getElem?_getD]
  rw [List.getElem?_append_left (by omega), List.getElem?_append_left (by omega),
    List.getElem?_append_left (by omega), List.getElem?_append_left (by omega)]

theorem DecodeFixed32_middle (a l c : List Byte) (k : Nat) (h : k + 4 ≤ l.length) :
    DecodeFixed32 (a ++ (l ++ c)) (a.length + k) = DecodeFixed32 l k := by
  rw [DecodeFixed32_append_left, DecodeFixed32_append_right l c k h]

theorem Slice.toBytes_ofString (l : List Byte) : (Slice.ofString l).toBytes = l := by
  simp [Slice.ofString, Slice.toBytes]

theorem Slice.size_ofString (l : List Byte) : (Slice.ofString l).size_ = l.length := rfl

/-! ## The codec of `MiniRunIndexEntry` -/

/-- C17: `EncodeMiniRunIndexEntry` keeps the prior content of the buffer as a prefix and
appends the little-endian 32-bit words of `seg`, `run`, the length of `bi` and the
length of `flt`, then the bytes of `bi`, then the bytes of `flt`: 16 + |bi| + |flt|
bytes, the same for every prior content of the buffer. -/
theorem EncodeMiniRunIndexEntry_layout (seg run : Nat) (bi flt buf : List Byte) :
    MiniRunIndexEntry.EncodeMiniRunIndexEntry seg run (Slice.ofString bi) (Slice.ofString flt) buf
        = buf ++ ([byteOf seg, byteOf (seg / 256), byteOf (seg / 65536), byteOf (seg / 16777216)]
          ++ [byteOf run, byteOf (run / 256), byteOf (run / 65536), byteOf (run / 16777216)]
          ++ [byteOf bi.length, byteOf (bi.length / 256), byteOf (bi.length / 65536),
              byteOf (bi.length / 16777216)]
          ++ [byteOf flt.length, byteOf (flt.length / 256), byteOf (flt.length / 65536),
              byteOf (flt.length / 16777216)]
          ++ bi ++ flt)
      ∧ (MiniRunIndexEntry.EncodeMiniRunIndexEntry seg run (Slice.ofString bi)
          (Slice.ofString flt) buf).length = buf.length + (16 + bi.length + flt.length)
      ∧ ∀ other : List Byte,
          (MiniRunIndexEntry.EncodeMiniRunIndexEntry seg run (Slice.ofString bi)
            (Slice.ofString flt) buf).drop buf.length
          = (MiniRunIndexEntry.EncodeMiniRunIndexEntry seg run (Slice.ofString bi)
            (Slice.ofString flt) other).drop other.length := by
  have key : ∀ b : List Byte,
      MiniRunIndexEntry.EncodeMiniRunIndexEntry seg run (Slice.ofString bi) (Slice.ofString flt) b
        = b ++ (EncodeFixed32 seg ++ EncodeFixed32 run ++ EncodeFixed32 bi.length
          ++ EncodeFixed32 flt.length ++ bi ++ flt) := by
    intro b
    simp only [MiniRunIndexEntry.EncodeMiniRunIndexEntry, PutFixed32, Slice.toBytes_ofString,
      Slice.size_ofString, List.append_assoc]
  refine ⟨?_, ?_, ?_⟩
  · rw [key]
    rfl
  · rw [key]
    simp only [List.length_append, EncodeFixed32_length]
  · intro other
    rw [key, key, List.drop_left, List.drop_left]

/-- C1: the bytes `EncodeMiniRunIndexEntry` appends to an empty buffer decode to the
fields they were made from: the constructor succeeds, segment and run number are the
encoded ones, and the block index and filter views hold the bytes of `bi` and `flt`. -/
theorem codec_round_trip (seg run : Nat) (bi flt : List Byte)
    (hseg : seg < 4294967296) (hrun : run < 4294967296)
    (hbi : bi.length < 4294967296) (hflt : flt.length < 4294967296) :
    ∃ e : MiniRunIndexEntry,
      MiniRunIndexEntry.ctor (Slice.ofString (MiniRunIndexEntry.EncodeMiniRunIndexEntry seg run
        (Slice.ofString bi) (Slice.ofString flt) [])) = some e
      ∧ e.GetSegmentNumber = seg
      ∧ e.GetRunNumberWithinSegment = run
      ∧ e.GetBlockIndexData.toBytes = bi
      ∧ e.GetFilterData.toBytes = flt := by
  have key : MiniRunIndexEntry.EncodeMiniRunIndexEntry seg run (Slice.ofString bi)
      (Slice.ofString flt) []
        = EncodeFixed32 seg ++ (EncodeFixed32 run ++ (EncodeFixed32 bi.length
          ++ (EncodeFixed32 flt.length ++ (bi ++ flt)))) := by
    simp only [MiniRunIndexEntry.EncodeMiniRunIndexEntry, PutFixed32, Slice.toBytes_ofString,
      Slice.size_ofString, List.append_assoc, List.nil_append]
  have d0 : DecodeFixed32 (EncodeFixed32 seg ++ (EncodeFixed32 run ++ (EncodeFixed32 bi.length
      ++ (EncodeFixed32 flt.length ++ (bi ++ flt))))) 0 = seg := by
    rw [DecodeFixed32_EncodeFixed32]
    omega
  have d1 : DecodeFixed32 (EncodeFixed32 seg ++ (EncodeFixed32 run ++ (EncodeFixed32 bi.length
      ++ (EncodeFixed32 flt.length ++ (bi ++ flt))))) 4 = run := by
    have h := DecodeFixed32_at (EncodeFixed32 seg) (EncodeFixed32 bi.length
      ++ (EncodeFixed32 flt.length ++ (bi ++ flt))) run
    rw [EncodeFixed32_length] at h
    rw [h]
    omega
  have d2 : DecodeFixed32 (EncodeFixed32 seg ++ (EncodeFixed32 run ++ (EncodeFixed32 bi.length
      ++ (EncodeFixed32 flt.length ++ (bi ++ flt))))) 8 = bi.length := by
    have h := DecodeFixed32_at (EncodeFixed32 seg ++ EncodeFixed32 run)
      (EncodeFixed32 flt.length ++ (bi ++ flt)) bi.length
    simp only [List.length_append, EncodeFixed32_length, List.append_assoc] at h
    rw [h]
    omega
  have d3 : DecodeFixed32 (EncodeFixed32 seg ++ (EncodeFixed32 run ++ (EncodeFixed32 bi.length
      ++ (EncodeFixed32 flt.length ++ (bi ++ flt))))) 12 = flt.length := by
    have h := DecodeFixed32_at (EncodeFixed32 seg ++ EncodeFixed32 run ++ EncodeFixed32 bi.length)
      (bi ++ flt) flt.length
    simp only [List.length_append, EncodeFixed32_length, List.append_assoc] at h
    rw [h]
    omega
  refine ⟨MiniRunIndexEntry.read (Slice.ofString (MiniRunIndexEntry.EncodeMiniRunIndexEntry seg run
        (Slice.ofString bi) (Slice.ofString flt) [])), ?_, ?_, ?_, ?_, ?_⟩
  · rw [MiniRunIndexEntry.ctor, if_pos]
    rw [key]
    simp only [Slice.ofString, List.length_append, EncodeFixed32_length]
    omega
  · rw [key]
    simpa [MiniRunIndexEntry.GetSegmentNumber, MiniRunIndexEntry.read, Slice.ofString] using d0
  · rw [key]
    simpa [MiniRunIndexEntry.GetRunNumberWithinSegment, MiniRunIndexEntry.read, Slice.ofString]
      using d1
  · rw [key]
    simp only [MiniRunIndexEntry.GetBlockIndexData, MiniRunIndexEntry.read, Slice.ofString,
      Slice.toBytes, Nat.zero_add, d2]
    have : (16 : Nat) = (EncodeFixed32 seg ++ (EncodeFixed32 run ++ (EncodeFixed32 bi.length
      ++ EncodeFixed32 flt.length))).length := rfl
    rw [show EncodeFixed32 seg ++ (EncodeFixed32 run ++ (EncodeFixed32 bi.length
          ++ (EncodeFixed32 flt.length ++ (bi ++ flt))))
        = (EncodeFixed32 seg ++ (EncodeFixed32 run ++ (EncodeFixed32 bi.length
          ++ EncodeFixed32 flt.length))) ++ (bi ++ flt) by simp only [List.append_assoc]]
    rw [this, List.drop_left, List.take_left]
  · rw [key]
    simp only [MiniRunIndexEntry.GetFilterData, MiniRunIndexEntry.read, Slice.ofString,
      Slice.toBytes, Nat.zero_add, d2, d3]
    have : 16 + bi.length = (EncodeFixed32 seg ++ (EncodeFixed32 run ++ (EncodeFixed32 bi.length
      ++ (EncodeFixed32 flt.length ++ bi)))).length := by
      simp only [List.length_append, EncodeFixed32_length]
      omega
    rw [show EncodeFixed32 seg ++ (EncodeFixed32 run ++ (EncodeFixed32 bi.length
          ++ (EncodeFixed32 flt.length ++ (bi ++ flt))))
        = (EncodeFixed32 seg ++ (EncodeFixed32 run ++ (EncodeFixed32 bi.length
          ++ (EncodeFixed32 flt.length ++ bi)))) ++ flt by simp only [List.append_assoc]]
    rw [this, List.drop_left, List.take_length]

/-- Witness of C1: segment 7, run 3, block index `[1, 2]`, filter `[9]`. -/
theorem codec_round_trip_witness :
    ∃ e : MiniRunIndexEntry,
      MiniRunIndexEntry.ctor (Slice.ofString (MiniRunIndexEntry.EncodeMiniRunIndexEntry 7 3
        (Slice.ofString [1, 2]) (Slice.ofString [9]) [])) = some e
      ∧ e.GetSegmentNumber = 7
      ∧ e.GetRunNumberWithinSegment = 3
      ∧ e.GetBlockIndexData.toBytes = [1, 2]
      ∧ e.GetFilterData.toBytes = [9] :=
  codec_round_trip 7 3 [1, 2] [9] (by decide) (by decide) (by decide) (by decide)

/-- C18, counterexample: the 16 bytes of `overrunSlice` announce lengths 1 and 0, so the
slice is shorter than 16 + L1 + L2 = 17; the constructor succeeds all the same and the
block index view of the entry ends one byte past the end of the slice. -/
theorem decode_overrun_not_rejected :
    16 ≤ overrunSlice.size_
      ∧ overrunSlice.size_ < 16 + DecodeFixed32 overrunSlice.mem (overrunSlice.data_ + 8)
          + DecodeFixed32 overrunSlice.mem (overrunSlice.data_ + 12)
      ∧ ∃ e : MiniRunIndexEntry, MiniRunIndexEntry.ctor overrunSlice = some e
          ∧ overrunSlice.data_ + overrunSlice.size_
              < e.GetBlockIndexData.data_ + e.GetBlockIndexData.size_ :=
  ⟨by decide, by decide, MiniRunIndexEntry.read overrunSlice, rfl, by decide⟩

/-- C18, amended: decoding a slice of at least 16 bytes never fails and checks no
length. It yields the four header words read at offsets 0, 4, 8 and 12; the block
index view starts at offset 16 with the announced length L1, the filter view at
offset 16 + L1 with the announced length L2, and the views lie within the slice
exactly when the slice has at least 16 + L1 + L2 bytes. -/
theorem decode_checks_no_length (data : Slice) (h : 16 ≤ data.size_) :
    ∃ e : MiniRunIndexEntry, MiniRunIndexEntry.ctor data = some e
      ∧ e.GetRawData = data
      ∧ e.GetSegmentNumber = DecodeFixed32 data.mem data.data_
      ∧ e.GetRunNumberWithinSegment = DecodeFixed32 data.mem (data.data_ + 4)
      ∧ e.GetBlockIndexData
          = ⟨data.mem, data.data_ + 16, DecodeFixed32 data.mem (data.data_ + 8)⟩
      ∧ e.GetFilterData
          = ⟨data.mem, data.data_ + 16 + DecodeFixed32 data.mem (data.data_ + 8),
              DecodeFixed32 data.mem (data.data_ + 12)⟩
      ∧ (e.GetFilterData.data_ + e.GetFilterData.size_ ≤ data.data_ + data.size_
          ↔ 16 + DecodeFixed32 data.mem (data.data_ + 8)
              + DecodeFixed32 data.mem (data.data_ + 12) ≤ data.size_) := by
  refine ⟨MiniRunIndexEntry.read data, ?_, rfl, rfl, rfl, rfl, rfl, ?_⟩
  · rw [MiniRunIndexEntry.ctor, if_pos h]
  · simp only [MiniRunIndexEntry.GetFilterData, MiniRunIndexEntry.read]
    omega

/-- Witness of C18 amended, on the 16 bytes of `overrunSlice`. -/
theorem decode_checks_no_length_witness :
    ∃ e : MiniRunIndexEntry, MiniRunIndexEntry.ctor overrunSlice = some e
      ∧ e.GetRawData = overrunSlice
      ∧ e.GetSegmentNumber = DecodeFixed32 overrunSlice.mem overrunSlice.data_
      ∧ e.GetRunNumberWithinSegment = DecodeFixed32 overrunSlice.mem (overrunSlice.data_ + 4)
      ∧ e.GetBlockIndexData
          = ⟨overrunSlice.mem, overrunSlice.data_ + 16,
              DecodeFixed32 overrunSlice.mem (overrunSlice.data_ + 8)⟩
      ∧ e.GetFilterData
          = ⟨overrunSlice.mem,
              overrunSlice.data_ + 16 + DecodeFixed32 overrunSlice.mem (overrunSlice.data_ + 8),
              DecodeFixed32 overrunSlice.mem (overrunSlice.data_ + 12)⟩
      ∧ (e.GetFilterData.data_ + e.GetFilterData.size_ ≤ overrunSlice.data_ + overrunSlice.size_
          ↔ 16 + DecodeFixed32 overrunSlice.mem (overrunSlice.data_ + 8)
              + DecodeFixed32 overrunSlice.mem (overrunSlice.data_ + 12) ≤ overrunSlice.size_) :=
  decode_checks_no_length overrunSlice (by decide)

/-! ## The layout of a leaf entry -/

theorem leafRecords_append (xs ys : List (List Byte)) :
    leafRecords (xs ++ ys) = leafRecords xs ++ leafRecords ys := by
  induction xs with
  | nil => rfl
  | cons b xs ih =>
    show leafRecords (b :: (xs ++ ys)) = leafRecords (b :: xs) ++ leafRecords ys
    simp only [leafRecords, ih, List.append_assoc]

theorem leafRecords_snoc (xs : List (List Byte)) (b : List Byte) :
    leafRecords (xs ++ [b]) = leafRecords xs ++ (b ++ EncodeFixed32 b.length) := by
  rw [leafRecords_append]
  simp only [leafRecords, List.append_nil]

theorem entriesAt_append (mem : List Byte) (xs ys : List (List Byte)) (off : Nat) :
    entriesAt mem off (xs ++ ys)
      = entriesAt mem off xs ++ entriesAt mem (off + (leafRecords xs).length) ys := by
  induction xs generalizing off with
  | nil => simp [entriesAt, leafRecords]
  | cons b xs ih =>
    show entriesAt mem off (b :: (xs ++ ys)) = _
    simp only [entriesAt, ih, leafRecords, List.length_append, EncodeFixed32_length,
      List.cons_append]
    have h : off + (b.length + 4) + (leafRecords xs).length
        = off + (b.length + 4 + (leafRecords xs).length) := by omega
    rw [h]

theorem entriesAt_snoc (mem : List Byte) (xs : List (List Byte)) (b : List Byte) (off : Nat) :
    entriesAt mem off (xs ++ [b])
      = entriesAt mem off xs
        ++ [MiniRunIndexEntry.read ⟨mem, off + (leafRecords xs).length, b.length⟩] := by
  rw [entriesAt_append]
  rfl

theorem entriesAt_length (mem : List Byte) (bs : List (List Byte)) (off : Nat) :
    (entriesAt mem off bs).length = bs.length := by
  induction bs generalizing off with
  | nil => rfl
  | cons b bs ih => simp [entriesAt, ih]

/-- The facts one iteration of a sweep needs at the record of the newest entry `b`. -/
theorem record_at_tail (raw : Slice) (front tail : List Byte) (xs : List (List Byte))
    (b : List Byte) (hmem : raw.mem = front ++ (leafRecords (xs ++ [b]) ++ tail))
    (hb : b.length < 4294967296) :
    DecodeFixed32 raw.mem (front.length + (leafRecords (xs ++ [b])).length - 4) = b.length
      ∧ front.length + (leafRecords (xs ++ [b])).length - 4 - b.length
          = front.length + (leafRecords xs).length
      ∧ 4 + b.length ≤ (leafRecords (xs ++ [b])).length := by
  have hlen : (leafRecords (xs ++ [b])).length = (leafRecords xs).length + b.length + 4 := by
    rw [leafRecords_snoc]
    simp only [List.length_append, EncodeFixed32_length]
    omega
  refine ⟨?_, by omega, by omega⟩
  have hm : raw.mem = (front ++ (leafRecords xs ++ b)) ++ (EncodeFixed32 b.length ++ tail) := by
    rw [hmem, leafRecords_snoc]
    simp only [List.append_assoc]
  have hp : front.length + (leafRecords (xs ++ [b])).length - 4
      = (front ++ (leafRecords xs ++ b)).length := by
    simp only [List.length_append]
    omega
  rw [hp, hm, DecodeFixed32_at]
  omega

/-! ## The sweeps of `ForEachMiniRunIndexEntry` on a well-formed leaf entry -/

/-- The first loop of the forward branch collects the entries newest first. -/
theorem forwardSweep_records (raw : Slice) (front : List Byte) (hoff : raw.data_ ≤ front.length)
    (bs : List (List Byte)) :
    ∀ (tail : List Byte) (acc : List MiniRunIndexEntry),
      raw.mem = front ++ (leafRecords bs ++ tail) →
      (∀ b ∈ bs, 16 ≤ b.length ∧ b.length < 4294967296) →
      LeafIndexEntry.forwardSweep raw bs.length (front.length + (leafRecords bs).length) acc
        = (acc ++ (entriesAt raw.mem front.length bs).reverse, Exit.returned) := by
  induction bs using List.reverseRecOn with
  | nil =>
    intro tail acc _ _
    simp [LeafIndexEntry.forwardSweep, entriesAt]
  | append_singleton xs b ih =>
    intro tail acc hmem hwf
    have hb := hwf b (by simp)
    obtain ⟨hdec, hp, hlen⟩ := record_at_tail raw front tail xs b hmem hb.2
    have hmem2 : raw.mem = front ++ (leafRecords xs ++ ((b ++ EncodeFixed32 b.length) ++ tail)) := by
      rw [hmem, leafRecords_snoc]
      simp only [List.append_assoc]
    have hwf2 : ∀ x ∈ xs, 16 ≤ x.length ∧ x.length < 4294967296 :=
      fun x hx => hwf x (by simp [hx])
    rw [List.length_append, List.length_singleton, LeafIndexEntry.forwardSweep]
    rw [if_neg (by omega)]
    simp only [hdec]
    rw [if_neg (by omega), hp]
    simp only [MiniRunIndexEntry.ctor, if_pos hb.1]
    rw [ih _ _ hmem2 hwf2, entriesAt_snoc]
    simp only [List.reverse_append, List.reverse_singleton, List.singleton_append,
      List.append_assoc]

/-- The loop of the backward branch on the records of a well-formed leaf entry: the
processor is called on the entries newest first, and when it never asks to stop the
loop goes on from the start of the records. -/
theorem backwardLoop_records {σ : Type} (processor : MiniRunIndexEntry → Nat → σ → Bool × σ)
    (raw : Slice) (num_entries : Nat) (front : List Byte) (hoff : raw.data_ ≤ front.length)
    (bs : List (List Byte)) :
    ∀ (tail : List Byte) (k : Nat) (st : σ),
      raw.mem = front ++ (leafRecords bs ++ tail) →
      (∀ b ∈ bs, 16 ≤ b.length ∧ b.length < 4294967296) →
      bs.length ≤ k → k ≤ 2147483647 →
      LeafIndexEntry.backwardLoop processor raw num_entries k
          (front.length + (leafRecords bs).length) st
        = match feedBackward processor num_entries (2147483647 - k)
              (entriesAt raw.mem front.length bs).reverse st with
          | (true, st) => (st, Exit.returned)
          | (false, st) =>
            LeafIndexEntry.backwardLoop processor raw num_entries (k - bs.length)
              front.length st := by
  induction bs using List.reverseRecOn with
  | nil =>
    intro tail k st _ _ _ _
    simp [feedBackward, entriesAt, leafRecords]
  | append_singleton xs b ih =>
    intro tail k st hmem hwf hk hk2
    have hb := hwf b (by simp)
    obtain ⟨hdec, hp, hlen⟩ := record_at_tail raw front tail xs b hmem hb.2
    have hmem2 : raw.mem = front ++ (leafRecords xs ++ ((b ++ EncodeFixed32 b.length) ++ tail)) := by
      rw [hmem, leafRecords_snoc]
      simp only [List.append_assoc]
    have hwf2 : ∀ x ∈ xs, 16 ≤ x.length ∧ x.length < 4294967296 :=
      fun x hx => hwf x (by simp [hx])
    rw [List.length_append, List.length_singleton] at hk
    obtain ⟨j, rfl⟩ : ∃ j, k = j + 1 := ⟨k - 1, by omega⟩
    have hbody : LeafIndexEntry.backwardBody processor raw num_entries (2147483647 - (j + 1))
        (front.length + (leafRecords (xs ++ [b])).length) st
        = (let r := processor (MiniRunIndexEntry.read
              ⟨raw.mem, front.length + (leafRecords xs).length, b.length⟩)
              ((num_entries + 4294967296 - (2147483647 - (j + 1))) % 4294967296) st
           if r.1 then LoopStep.done r.2 Exit.returned
           else LoopStep.next (front.length + (leafRecords xs).length) r.2) := by
      rw [LeafIndexEntry.backwardBody, if_neg (by omega)]
      simp only [hdec]
      rw [if_neg (by omega), hp]
      simp only [MiniRunIndexEntry.ctor, if_pos hb.1]
    rw [LeafIndexEntry.backwardLoop, hbody, entriesAt_snoc]
    simp only [List.reverse_append, List.reverse_singleton, List.singleton_append, feedBackward]
    have hi : 2147483647 - (j + 1) + 1 = 2147483647 - j := by omega
    have hj : j + 1 - (xs.length + 1) = j - xs.length := by omega
    rw [hi, List.length_append, List.length_singleton, hj]
    cases hr : (processor (MiniRunIndexEntry.read
        ⟨raw.mem, front.length + (leafRecords xs).length, b.length⟩)
        ((num_entries + 4294967296 - (2147483647 - (j + 1))) % 4294967296) st).1 with
    | true => simp
    | false =>
      simp only [Bool.false_eq_true, if_false]
      exact ih _ _ _ hmem2 hwf2 (by omega) (by omega)

/-- At the start of the buffer the next iteration of the backward loop fails its first
assertion. -/
theorem backwardLoop_at_start {σ : Type} (processor : MiniRunIndexEntry → Nat → σ → Bool × σ)
    (raw : Slice) (num_entries k p : Nat) (st : σ) (hp : p < raw.data_ + 4) :
    LeafIndexEntry.backwardLoop processor raw num_entries k p st
      = (st, Exit.aborted Fault.assertFailed) := by
  cases k with
  | zero => simp [LeafIndexEntry.backwardLoop, LeafIndexEntry.backwardBody, hp]
  | succ k => simp [LeafIndexEntry.backwardLoop, LeafIndexEntry.backwardBody, hp]

/-! ## Traversals of a well-formed leaf entry -/

theorem LeafIndexEntry.Encodes.mem_eq {self : LeafIndexEntry} {bs : List (List Byte)}
    (h : self.Encodes bs) :
    ∃ front back : List Byte,
      self.raw_data_.mem = front ++ (leafRecords bs ++ (EncodeFixed32 bs.length ++ back))
        ∧ front.length = self.raw_data_.data_
        ∧ self.raw_data_.size_ = (leafRecords bs).length + 4 := by
  have hin : self.raw_data_.data_ + self.raw_data_.size_ ≤ self.raw_data_.mem.length := h.inBounds
  have hbytes : (self.raw_data_.mem.drop self.raw_data_.data_).take self.raw_data_.size_
      = encodeLeaf bs := h.bytes
  refine ⟨self.raw_data_.mem.take self.raw_data_.data_,
    (self.raw_data_.mem.drop self.raw_data_.data_).drop self.raw_data_.size_, ?_, ?_, ?_⟩
  · have h1 : leafRecords bs ++ (EncodeFixed32 bs.length
        ++ (self.raw_data_.mem.drop self.raw_data_.data_).drop self.raw_data_.size_)
        = self.raw_data_.mem.drop self.raw_data_.data_ := by
      rw [← List.append_assoc]
      show encodeLeaf bs ++ _ = _
      rw [← hbytes, List.take_append_drop]
    rw [h1, List.take_append_drop]
  · rw [List.length_take]
    omega
  · have h2 := congrArg List.length hbytes
    rw [List.length_take, List.length_drop] at h2
    simp only [encodeLeaf, List.length_append, EncodeFixed32_length] at h2
    omega

theorem LeafIndexEntry.Encodes.numMiniRuns {self : LeafIndexEntry} {bs : List (List Byte)}
    (h : self.Encodes bs) : self.GetNumMiniRuns = bs.length := by
  obtain ⟨front, back, hmem, hfront, hsize⟩ := h.mem_eq
  have hcount := h.count
  rw [LeafIndexEntry.GetNumMiniRuns, if_neg (by omega)]
  have hp : self.raw_data_.data_ + self.raw_data_.size_ - 4 = (front ++ leafRecords bs).length := by
    simp only [List.length_append]
    omega
  rw [hp, hmem, ← List.append_assoc, DecodeFixed32_at]
  omega

/-- The backward traversal of a well-formed leaf entry with N entries, N at least 1:
the processor is called on the entries newest first with the counter values N - 1, N,
N + 1, ...; the call returns when the processor asks to stop, and when it never does
the call is aborted by the assertion on the pointer after the call for the oldest
entry. -/
theorem LeafIndexEntry.backward_of_encodes {σ : Type} (self : LeafIndexEntry)
    (bs : List (List Byte)) (h : self.Encodes bs) (hpos : 0 < bs.length)
    (hN : bs.length ≤ 1073741824)
    (processor : MiniRunIndexEntry → Nat → σ → Bool × σ) (st : σ) :
    self.ForEachMiniRunIndexEntry processor .backward st
      = backwardEnd
          (feedBackward processor bs.length (bs.length - 1) (self.entries bs).reverse st) := by
  obtain ⟨front, back, hmem, hfront, hsize⟩ := h.mem_eq
  have hp : self.raw_data_.data_ + self.raw_data_.size_ - 4
      = front.length + (leafRecords bs).length := by omega
  simp only [LeafIndexEntry.ForEachMiniRunIndexEntry, h.numMiniRuns]
  rw [if_neg (by omega), if_neg (by omega), hp,
    backwardLoop_records processor self.raw_data_ bs.length front (by omega) bs _ _ st hmem
      h.entries (by omega) (by omega)]
  have hi : 2147483647 - (2147483647 - (bs.length - 1)) = bs.length - 1 := by omega
  rw [hi, LeafIndexEntry.entries, hfront]
  cases feedBackward processor bs.length (bs.length - 1)
      (entriesAt self.raw_data_.mem self.raw_data_.data_ bs).reverse st with
  | mk stop st2 =>
    cases stop with
    | true => rfl
    | false =>
      exact backwardLoop_at_start processor self.raw_data_ bs.length _ _ st2 (by omega)

/-- The forward traversal of a well-formed leaf entry: the entries are collected
newest first by the sweep and the processor is called on them in that order, with the
position in that order as its second argument. -/
theorem LeafIndexEntry.forward_of_encodes {σ : Type} (self : LeafIndexEntry)
    (bs : List (List Byte)) (h : self.Encodes bs) (hN : bs.length < 2147483648)
    (processor : MiniRunIndexEntry → Nat → σ → Bool × σ) (st : σ) :
    self.ForEachMiniRunIndexEntry processor .forward st
      = LeafIndexEntry.forwardReplay processor (self.entries bs).reverse 0 st := by
  obtain ⟨front, back, hmem, hfront, hsize⟩ := h.mem_eq
  simp only [LeafIndexEntry.ForEachMiniRunIndexEntry, h.numMiniRuns]
  by_cases h0 : bs.length = 0
  · have hnil : bs = [] := List.length_eq_zero.mp h0
    subst hnil
    simp [LeafIndexEntry.entries, entriesAt, LeafIndexEntry.forwardReplay]
  · have hp : self.raw_data_.data_ + self.raw_data_.size_ - 4
        = front.length + (leafRecords bs).length := by omega
    rw [if_neg h0, if_neg (by omega), hp,
      forwardSweep_records self.raw_data_ front (by omega) bs _ [] hmem h.entries]
    simp only [List.nil_append, LeafIndexEntry.entries, hfront]

theorem entries_length (leaf : LeafIndexEntry) (bs : List (List Byte)) :
    (leaf.entries bs).length = bs.length := entriesAt_length _ _ _

/-! ## What the traversals of a well-formed leaf entry collect -/

/-- The entry objects of a well-formed leaf entry view the bytes of its entries. -/
theorem entriesAt_toBytes (bs : List (List Byte)) :
    ∀ (mem front tail : List Byte), mem = front ++ (leafRecords bs ++ tail) →
      (entriesAt mem front.length bs).map (fun e => e.GetRawData.toBytes) = bs := by
  induction bs with
  | nil =>
    intro mem front tail _
    rfl
  | cons b bs ih =>
    intro mem front tail hmem
    have hmem2 : mem = (front ++ (b ++ EncodeFixed32 b.length)) ++ (leafRecords bs ++ tail) := by
      rw [hmem]
      simp only [leafRecords, List.append_assoc]
    have hlen : (front ++ (b ++ EncodeFixed32 b.length)).length = front.length + (b.length + 4) := by
      simp only [List.length_append, EncodeFixed32_length]
    have htail := ih mem (front ++ (b ++ EncodeFixed32 b.length)) tail hmem2
    rw [hlen] at htail
    rw [entriesAt, List.map_cons, htail]
    congr 1
    show (mem.drop front.length).take b.length = b
    rw [hmem, leafRecords, List.drop_left]
    simp only [List.append_assoc, List.take_left]

theorem LeafIndexEntry.Encodes.entries_toBytes {self : LeafIndexEntry} {bs : List (List Byte)}
    (h : self.Encodes bs) : (self.entries bs).map (fun e => e.GetRawData.toBytes) = bs := by
  obtain ⟨front, back, hmem, hfront, _⟩ := h.mem_eq
  rw [LeafIndexEntry.entries, ← hfront]
  exact entriesAt_toBytes bs _ front _ hmem

theorem forwardReplay_collect (es : List MiniRunIndexEntry) :
    ∀ (i : Nat) (acc : List MiniRunIndexEntry), i + es.length ≤ 2147483647 →
      LeafIndexEntry.forwardReplay (fun entry _ res => (false, res ++ [entry])) es i acc
        = (acc ++ es, Exit.returned) := by
  induction es with
  | nil =>
    intro i acc _
    simp [LeafIndexEntry.forwardReplay]
  | cons e es ih =>
    intro i acc hi
    rw [List.length_cons] at hi
    rw [LeafIndexEntry.forwardReplay]
    simp only [Bool.false_eq_true, if_false]
    rw [if_neg (by omega), ih (i + 1) _ (by omega)]
    simp

theorem feedBackward_collect (n : Nat) (es : List MiniRunIndexEntry) :
    ∀ (i : Nat) (acc : List MiniRunIndexEntry),
      feedBackward (fun entry _ res => (false, res ++ [entry])) n i es acc
        = (false, acc ++ es) := by
  induction es with
  | nil =>
    intro i acc
    simp [feedBackward]
  | cons e es ih =>
    intro i acc
    rw [feedBackward]
    simp only [Bool.false_eq_true, if_false]
    rw [ih]
    simp

/-- On every well-formed leaf entry the forward collection returns the entries newest
first. -/
theorem GetAll_forward_of_encodes (self : LeafIndexEntry) (bs : List (List Byte))
    (h : self.Encodes bs) (hN : bs.length < 2147483648) :
    self.GetAllMiniRunIndexEntry .forward = ((self.entries bs).reverse, Exit.returned) := by
  rw [LeafIndexEntry.GetAllMiniRunIndexEntry, LeafIndexEntry.forward_of_encodes self bs h hN,
    forwardReplay_collect _ 0 [] (by
      rw [List.length_reverse, entries_length]
      omega)]
  rfl

/-- On every well-formed leaf entry with at least one entry the backward collection
gathers the entries newest first and is then aborted by the assertion on the pointer. -/
theorem GetAll_backward_of_encodes (self : LeafIndexEntry) (bs : List (List Byte))
    (h : self.Encodes bs) (hpos : 0 < bs.length) (hN : bs.length ≤ 1073741824) :
    self.GetAllMiniRunIndexEntry .backward
      = ((self.entries bs).reverse, Exit.aborted Fault.assertFailed) := by
  rw [LeafIndexEntry.GetAllMiniRunIndexEntry,
    LeafIndexEntry.backward_of_encodes self bs h hpos hN, feedBackward_collect]
  rfl

/-! ## Traversal order and indices on concrete leaf entries -/

/-- C2, evaluation: on the leaf entry that holds `entryA` (appended first) and then
`entryB`, the forward traversal calls the processor on `entryB` with index 0 and then
on `entryA` with index 1: newest first, where the claim has `entryA` with index 0
first. -/
theorem forward_traversal_is_newest_first :
    (leafOf (encodeLeaf [entryA, entryB])).ForEachMiniRunIndexEntry recordCalls .forward []
        = ([(entryB, 0), (entryA, 1)], Exit.returned)
      ∧ ((leafOf (encodeLeaf [entryA, entryB])).GetAllMiniRunIndexEntry .forward).1.map
          (fun e => e.GetRawData.toBytes) = [entryB, entryA] := by
  decide

/-- C3, evaluation: on the leaf entry that holds `entryA` and then `entryB`, the
backward collection gathers `entryB`, `entryA` and is then aborted by the assertion
on the pointer, and the forward collection returns `entryB`, `entryA` as well: the
backward sequence reversed is not the forward sequence. -/
theorem backward_reversed_is_not_forward :
    ((leafOf (encodeLeaf [entryA, entryB])).GetAllMiniRunIndexEntry .backward).1.map
        (fun e => e.GetRawData.toBytes) = [entryB, entryA]
      ∧ ((leafOf (encodeLeaf [entryA, entryB])).GetAllMiniRunIndexEntry .backward).2
          = Exit.aborted Fault.assertFailed
      ∧ ((leafOf (encodeLeaf [entryA, entryB])).GetAllMiniRunIndexEntry .forward).1.map
          (fun e => e.GetRawData.toBytes) = [entryB, entryA]
      ∧ ((leafOf (encodeLeaf [entryA, entryB])).GetAllMiniRunIndexEntry .backward).1.reverse
          ≠ ((leafOf (encodeLeaf [entryA, entryB])).GetAllMiniRunIndexEntry .forward).1 := by
  decide

/-- C4, evaluation: on the leaf entry that holds `entryA`, `entryB`, `entryC` in
insertion order, the backward traversal passes the indices 1, 0 and 2^32 - 1 with
`entryC`, `entryB`, `entryA`, whose insertion indices are 2, 1 and 0; on the leaf entry
with `entryA` alone it passes 1 for insertion index 0. -/
theorem backward_traversal_indices :
    ((leafOf (encodeLeaf [entryA, entryB, entryC])).ForEachMiniRunIndexEntry recordCalls
        .backward []).1 = [(entryC, 1), (entryB, 0), (entryA, 4294967295)]
      ∧ ((leafOf (encodeLeaf [entryA])).ForEachMiniRunIndexEntry recordCalls
        .backward []).1 = [(entryA, 1)] := by
  decide

/-- C19, evaluation: on the leaf entry with the single entry `entryA` and a processor
that never stops, the backward traversal calls the processor once and does not return:
the second iteration fails the assertion `p >= raw_data_.data()`. The same holds after
two calls on the leaf entry with `entryA` and `entryB`. -/
theorem backward_traversal_ends_in_assertion :
    (leafOf (encodeLeaf [entryA])).ForEachMiniRunIndexEntry recordCalls .backward []
        = ([(entryA, 1)], Exit.aborted Fault.assertFailed)
      ∧ (leafOf (encodeLeaf [entryA, entryB])).ForEachMiniRunIndexEntry recordCalls .backward []
        = ([(entryB, 1), (entryA, 0)], Exit.aborted Fault.assertFailed) := by
  decide

/-! ## `ReplaceMiniRunRange` on concrete leaf entries -/

/-- C6, evaluation: in scenario 4 of section 8 the entry E3 = replace_range(E2, 0, 1, M_c)
is `entryC` with its length word and the footer 3, so `GetNumMiniRuns` of E3 is 3 where
the claim has 1. -/
theorem replace_writes_count_plus_one :
    scenarioE3 = some (leafOf (entryC ++ EncodeFixed32 17 ++ EncodeFixed32 3))
      ∧ scenarioE3.map (fun E3 => E3.GetNumMiniRuns) = some 3 := by
  decide

/-- C7, evaluation: replacing the range from 0 to 0 of the leaf entry that holds
`entryA`, `entryB`, `entryC` (of 19, 16 and 17 bytes) by `entryD` (18 bytes) writes
`entryD`, `entryB`, `entryA`, each followed by the length word 18, and the footer 4:
the newest entry was replaced, the kept entries are in newest-first order and carry
the length of the replacement. -/
theorem replace_writes_replacement_length :
    replaced (leafOf (encodeLeaf [entryA, entryB, entryC])) 0 0 entryD
      = some (leafOf (entryD ++ EncodeFixed32 18 ++ (entryB ++ EncodeFixed32 18)
          ++ (entryA ++ EncodeFixed32 18) ++ EncodeFixed32 4)) := by
  decide

/-- C10, evaluation: the entry E3 of scenario 4 has the footer 3 and a single record;
its forward traversal is aborted by the assertion on the pointer before any call, and
its backward traversal observes one entry before it is aborted. -/
theorem replace_output_is_not_well_formed :
    scenarioE3.map (fun E3 => E3.GetNumMiniRuns) = some 3
      ∧ scenarioE3.map (fun E3 => E3.GetAllMiniRunIndexEntry .forward)
          = some ([], Exit.aborted Fault.assertFailed)
      ∧ scenarioE3.map (fun E3 => ((E3.GetAllMiniRunIndexEntry .backward).1.length,
          (E3.GetAllMiniRunIndexEntry .backward).2))
          = some (1, Exit.aborted Fault.assertFailed) := by
  decide

/-! ## `AppendMiniRunIndexEntry` -/

theorem Slice.length_toBytes (s : Slice) (h : s.InBounds) : s.toBytes.length = s.size_ := by
  have h2 : s.data_ + s.size_ ≤ s.mem.length := h
  rw [Slice.toBytes, List.length_take, List.length_drop]
  omega

theorem Slice.inBounds_ofString (l : List Byte) : (Slice.ofString l).InBounds := by
  show 0 + l.length ≤ l.length
  omega

/-- C5: on a well-formed base leaf entry with N entries (the empty leaf of four zero
bytes included, for N = 0), a mini-run entry `e` and an empty `buf`,
`AppendMiniRunIndexEntry` returns OK and leaves in `buf` the bytes of the base without
their last four, then the bytes of `e`, the little-endian length of `e` and the
little-endian N + 1. The new leaf entry views that buffer, its `GetNumMiniRuns` is
N + 1, it is well formed with `e` as its last entry, and the sweep from its tail reads
`e` first. -/
theorem append_layout (base : LeafIndexEntry) (bs : List (List Byte)) (e : MiniRunIndexEntry)
    (h : base.Encodes bs) (he : e.GetRawData.InBounds) (he16 : 16 ≤ e.GetRawData.size_)
    (he32 : e.GetRawData.size_ < 4294967296) (hN : bs.length + 1 < 4294967296) :
    ∃ (buf : List Byte) (new_entry : LeafIndexEntry),
      LeafIndexEntryBuilder.AppendMiniRunIndexEntry base e [] = .ok (Status.OK, buf, new_entry)
      ∧ buf = base.GetRawData.toBytes.take (base.GetRawData.toBytes.length - 4)
          ++ e.GetRawData.toBytes ++ EncodeFixed32 e.GetRawData.toBytes.length
          ++ EncodeFixed32 (bs.length + 1)
      ∧ new_entry.GetRawData = Slice.ofString buf
      ∧ new_entry.GetNumMiniRuns = bs.length + 1
      ∧ new_entry.Encodes (bs ++ [e.GetRawData.toBytes])
      ∧ ∃ newest : MiniRunIndexEntry,
          LeafIndexEntry.forwardSweep new_entry.GetRawData 1
            (new_entry.GetRawData.data_ + new_entry.GetRawData.size_ - 4) []
            = ([newest], Exit.returned)
          ∧ newest.GetRawData.toBytes = e.GetRawData.toBytes
          ∧ newest.GetSegmentNumber = DecodeFixed32 e.GetRawData.toBytes 0
          ∧ newest.GetRunNumberWithinSegment = DecodeFixed32 e.GetRawData.toBytes 4 := by
  have hlen := Slice.length_toBytes _ he
  have hbase : base.GetRawData.toBytes = leafRecords bs ++ EncodeFixed32 bs.length := h.bytes
  have htake : base.GetRawData.toBytes.take (base.GetRawData.toBytes.length - 4)
      = leafRecords bs := by
    rw [hbase, List.length_append, EncodeFixed32_length, Nat.add_sub_cancel, List.take_left]
  have hbuf : leafRecords bs ++ e.GetRawData.toBytes ++ EncodeFixed32 e.GetRawData.toBytes.length
      ++ EncodeFixed32 (bs.length + 1) = encodeLeaf (bs ++ [e.GetRawData.toBytes]) := by
    rw [encodeLeaf, leafRecords_snoc, List.length_append, List.length_singleton]
    simp only [List.append_assoc]
  have henc : (leafOf (encodeLeaf (bs ++ [e.GetRawData.toBytes]))).Encodes
      (bs ++ [e.GetRawData.toBytes]) := by
    refine ⟨Slice.inBounds_ofString _, Slice.toBytes_ofString _, ?_, ?_⟩
    · intro b hb
      rcases List.mem_append.mp hb with hb | hb
      · exact h.entries b hb
      · rw [List.mem_singleton.mp hb, hlen]
        exact ⟨he16, he32⟩
    · rw [List.length_append, List.length_singleton]
      exact hN
  refine ⟨encodeLeaf (bs ++ [e.GetRawData.toBytes]),
    leafOf (encodeLeaf (bs ++ [e.GetRawData.toBytes])), ?_, ?_, rfl, henc.numMiniRuns ▸ ?_, henc, ?_⟩
  · have hl : (base.GetRawData.toBytes).length = (leafRecords bs).length + 4 := by
      rw [hbase, List.length_append, EncodeFixed32_length]
    simp only [LeafIndexEntryBuilder.AppendMiniRunIndexEntry, List.nil_append, PutFixed32]
    rw [if_neg (by omega), if_pos (by omega), htake, h.numMiniRuns, ← hlen, hbuf]
    have hc : LeafIndexEntry.ctor (Slice.ofString (encodeLeaf (bs ++ [e.GetRawData.toBytes])))
        = some (leafOf (encodeLeaf (bs ++ [e.GetRawData.toBytes]))) := by
      rw [LeafIndexEntry.ctor, if_pos]
      · rfl
      · simp only [Slice.size_ofString, encodeLeaf, List.length_append, EncodeFixed32_length]
        omega
    rw [hc]
  · rw [htake, hbuf]
  · rw [List.length_append, List.length_singleton]
  · have hmem : (leafOf (encodeLeaf (bs ++ [e.GetRawData.toBytes]))).GetRawData.mem
        = leafRecords bs ++ (leafRecords [e.GetRawData.toBytes]
          ++ EncodeFixed32 (bs ++ [e.GetRawData.toBytes]).length) := by
      show encodeLeaf (bs ++ [e.GetRawData.toBytes]) = _
      rw [encodeLeaf, leafRecords_append, List.append_assoc]
    have hsweep := forwardSweep_records
      (leafOf (encodeLeaf (bs ++ [e.GetRawData.toBytes]))).GetRawData (leafRecords bs)
      (Nat.zero_le _) [e.GetRawData.toBytes] _ [] hmem
      (by
        intro b hb
        rw [List.mem_singleton.mp hb, hlen]
        exact ⟨he16, he32⟩)
    have hp : (leafOf (encodeLeaf (bs ++ [e.GetRawData.toBytes]))).GetRawData.data_
        + (leafOf (encodeLeaf (bs ++ [e.GetRawData.toBytes]))).GetRawData.size_ - 4
        = (leafRecords bs).length + (leafRecords [e.GetRawData.toBytes]).length := by
      show 0 + (encodeLeaf (bs ++ [e.GetRawData.toBytes])).length - 4 = _
      rw [encodeLeaf, leafRecords_append]
      simp only [List.length_append, EncodeFixed32_length]
      omega
    rw [hp]
    refine ⟨_, hsweep, ?_, ?_, ?_⟩
    · show ((encodeLeaf (bs ++ [e.GetRawData.toBytes])).drop (leafRecords bs).length).take
        e.GetRawData.toBytes.length = _
      rw [encodeLeaf, leafRecords_snoc]
      simp only [List.append_assoc, List.drop_left, List.take_left]
    · show DecodeFixed32 (encodeLeaf (bs ++ [e.GetRawData.toBytes])) (leafRecords bs).length = _
      rw [encodeLeaf, leafRecords_snoc]
      simp only [List.append_assoc]
      have hd := DecodeFixed32_middle (leafRecords bs) e.GetRawData.toBytes
        (EncodeFixed32 e.GetRawData.toBytes.length
          ++ EncodeFixed32 (bs ++ [e.GetRawData.toBytes]).length) 0 (by omega)
      rw [Nat.add_zero] at hd
      exact hd
    · show DecodeFixed32 (encodeLeaf (bs ++ [e.GetRawData.toBytes]))
        ((leafRecords bs).length + 4) = _
      rw [encodeLeaf, leafRecords_snoc]
      simp only [List.append_assoc]
      exact DecodeFixed32_middle (leafRecords bs) e.GetRawData.toBytes
        (EncodeFixed32 e.GetRawData.toBytes.length
          ++ EncodeFixed32 (bs ++ [e.GetRawData.toBytes]).length) 4 (by omega)

/-- Witness of C5: appending `entryA` to the empty leaf of four zero bytes. -/
theorem append_layout_witness :
    ∃ (buf : List Byte) (new_entry : LeafIndexEntry),
      LeafIndexEntryBuilder.AppendMiniRunIndexEntry leafE0 (entryOf entryA) []
        = .ok (Status.OK, buf, new_entry)
      ∧ buf = entryA ++ EncodeFixed32 19 ++ EncodeFixed32 1
      ∧ new_entry.GetNumMiniRuns = 1
      ∧ new_entry.Encodes [entryA] := by
  obtain ⟨buf, new_entry, h1, h2, _, h4, h5, _⟩ := append_layout leafE0 [] (entryOf entryA)
    ⟨by decide, by decide, by decide, by decide⟩ (by decide) (by decide) (by decide) (by decide)
  refine ⟨buf, new_entry, h1, ?_, h4, h5⟩
  rw [h2]
  decide

/-! ## `ReplaceMiniRunRange` -/

theorem ReplaceProcessor_eq (start end_ : Nat) (r x : MiniRunIndexEntry) (i : Nat)
    (buf : List Byte) (n : Nat) :
    ∃ m, LeafIndexEntryBuilder.ReplaceProcessor start end_ r x i (buf, n)
      = (false, (buf ++ (LeafIndexEntryBuilder.ReplaceProcessor start end_ r x i ([], 0)).2.1, m)) := by
  simp only [LeafIndexEntryBuilder.ReplaceProcessor, PutFixed32]
  by_cases h1 : start ≤ i ∧ i ≤ end_
  · by_cases h2 : i = start
    · subst h2
      simp [h1.2]
    · simp [h1, h2]
  · simp [h1]

/-- The replay loop with the lambda of `ReplaceMiniRunRange` returns and appends what
the calls write. -/
theorem forwardReplay_replace (start end_ : Nat) (r : MiniRunIndexEntry)
    (xs : List MiniRunIndexEntry) :
    ∀ (i : Nat) (buf : List Byte) (n : Nat), i + xs.length ≤ 2147483647 →
      ∃ m, LeafIndexEntry.forwardReplay (LeafIndexEntryBuilder.ReplaceProcessor start end_ r) xs i
          (buf, n) = ((buf ++ replaceWrites start end_ r i xs, m), Exit.returned) := by
  induction xs with
  | nil =>
    intro i buf n _
    exact ⟨n, by simp [LeafIndexEntry.forwardReplay, replaceWrites]⟩
  | cons x xs ih =>
    intro i buf n hi
    rw [List.length_cons] at hi
    have hmod : i % 4294967296 = i := Nat.mod_eq_of_lt (by omega)
    obtain ⟨m, hm⟩ := ReplaceProcessor_eq start end_ r x i buf n
    obtain ⟨m2, hm2⟩ := ih (i + 1)
      (buf ++ (LeafIndexEntryBuilder.ReplaceProcessor start end_ r x i ([], 0)).2.1) m (by omega)
    refine ⟨m2, ?_⟩
    rw [LeafIndexEntry.forwardReplay]
    simp only [hmod, hm, Bool.false_eq_true, if_false]
    rw [if_neg (by omega), hm2, replaceWrites, List.append_assoc]

theorem replaceWrites_append (start end_ : Nat) (r : MiniRunIndexEntry)
    (xs ys : List MiniRunIndexEntry) :
    ∀ i, replaceWrites start end_ r i (xs ++ ys)
      = replaceWrites start end_ r i xs ++ replaceWrites start end_ r (i + xs.length) ys := by
  induction xs with
  | nil =>
    intro i
    simp [replaceWrites]
  | cons x xs ih =>
    intro i
    show replaceWrites start end_ r i (x :: (xs ++ ys)) = _
    simp only [replaceWrites, ih, List.length_cons, List.append_assoc]
    have h : i + 1 + xs.length = i + (xs.length + 1) := by omega
    rw [h]

theorem replaceWrites_outside (start end_ : Nat) (r : MiniRunIndexEntry)
    (xs : List MiniRunIndexEntry) :
    ∀ i, (∀ j, i ≤ j → j < i + xs.length → ¬ (start ≤ j ∧ j ≤ end_)) →
      replaceWrites start end_ r i xs = keptRecords r xs := by
  induction xs with
  | nil =>
    intro i _
    rfl
  | cons x xs ih =>
    intro i h
    have hi := h i (Nat.le_refl i) (by simp)
    rw [replaceWrites, keptRecords, ih (i + 1) (fun j h1 h2 => h j (by omega)
      (by rw [List.length_cons]; omega))]
    simp [LeafIndexEntryBuilder.ReplaceProcessor, hi]

theorem replaceWrites_inside (start end_ : Nat) (r : MiniRunIndexEntry)
    (xs : List MiniRunIndexEntry) :
    ∀ i, (∀ j, i ≤ j → j < i + xs.length → start < j ∧ j ≤ end_) →
      replaceWrites start end_ r i xs = [] := by
  induction xs with
  | nil =>
    intro i _
    rfl
  | cons x xs ih =>
    intro i h
    have hi := h i (Nat.le_refl i) (by simp)
    rw [replaceWrites, ih (i + 1) (fun j h1 h2 => h j (by omega)
      (by rw [List.length_cons]; omega))]
    have h1 : start ≤ i ∧ i ≤ end_ := ⟨by omega, hi.2⟩
    have h2 : ¬ i = start := by omega
    simp [LeafIndexEntryBuilder.ReplaceProcessor, h1, h2]

/-- What the lambda of `ReplaceMiniRunRange` writes over a whole traversal: when
`start` is the index of a call and `start ≤ end_`, the records of the entries before
index `start`, the record of the replacement, the records of the entries after index
`end_`; otherwise the records of all entries. -/
theorem replaceWrites_closed (start end_ : Nat) (r : MiniRunIndexEntry)
    (xs : List MiniRunIndexEntry) :
    replaceWrites start end_ r 0 xs
      = if start ≤ end_ ∧ start < xs.length then
          keptRecords r (xs.take start)
            ++ PutFixed32 r.GetRawData.toBytes r.GetRawData.size_
            ++ keptRecords r (xs.drop (end_ + 1))
        else keptRecords r xs := by
  by_cases h : start ≤ end_ ∧ start < xs.length
  · rw [if_pos h]
    obtain ⟨hse, hsl⟩ := h
    have hsplit : xs = xs.take start ++ xs.drop start := (List.take_append_drop start xs).symm
    have hlt : (xs.take start).length = start := by
      rw [List.length_take]
      omega
    obtain ⟨x, R, hR⟩ : ∃ x R, xs.drop start = x :: R := by
      cases hd : xs.drop start with
      | nil =>
        have := congrArg List.length hd
        rw [List.length_drop] at this
        simp at this
        omega
      | cons x R => exact ⟨x, R, rfl⟩
    have hRlen : R.length = xs.length - start - 1 := by
      have := congrArg List.length hR
      rw [List.length_drop, List.length_cons] at this
      omega
    have hdrop : xs.drop (end_ + 1) = R.drop (end_ - start) := by
      have h1 : R = (xs.drop start).drop 1 := by rw [hR]; rfl
      rw [h1, List.drop_drop, List.drop_drop]
      congr 1
      omega
    have hRsplit : R = R.take (end_ - start) ++ R.drop (end_ - start) :=
      (List.take_append_drop _ R).symm
    have htl : (R.take (end_ - start)).length ≤ end_ - start := by
      rw [List.length_take]
      exact Nat.min_le_left _ _
    have htl2 : R.length ≤ end_ - start ∨ (R.take (end_ - start)).length = end_ - start := by
      rw [List.length_take]
      rcases Nat.le_total R.length (end_ - start) with h1 | h1
      · exact Or.inl h1
      · exact Or.inr (Nat.min_eq_left h1)
    have hw1 : replaceWrites start end_ r 0 (xs.take start) = keptRecords r (xs.take start) :=
      replaceWrites_outside start end_ r _ 0 (fun j _ h2 => by omega)
    have hw2 : replaceWrites start end_ r (start + 1) (R.take (end_ - start)) = [] :=
      replaceWrites_inside start end_ r _ (start + 1) (fun j h1 h2 => by omega)
    have hw3 : replaceWrites start end_ r (start + 1 + (R.take (end_ - start)).length)
        (R.drop (end_ - start)) = keptRecords r (R.drop (end_ - start)) := by
      apply replaceWrites_outside
      intro j h1 h2
      rw [List.length_drop] at h2
      rcases htl2 with h3 | h3
      · omega
      · omega
    have hx : (LeafIndexEntryBuilder.ReplaceProcessor start end_ r x start ([], 0)).2.1
        = PutFixed32 r.GetRawData.toBytes r.GetRawData.size_ := by
      simp [LeafIndexEntryBuilder.ReplaceProcessor, hse]
    conv_lhs => rw [hsplit]
    rw [replaceWrites_append, hw1, hlt, Nat.zero_add, hR, replaceWrites, hx]
    conv_lhs => rw [hRsplit]
    rw [replaceWrites_append, hw2, hw3, hdrop, List.nil_append, List.append_assoc]
  · rw [if_neg h]
    exact replaceWrites_outside start end_ r xs 0 (fun j _ h2 => by omega)

theorem encodes_leafOf (bs : List (List Byte))
    (hwf : ∀ b ∈ bs, 16 ≤ b.length ∧ b.length < 4294967296) (hcount : bs.length < 4294967296) :
    (leafOf (encodeLeaf bs)).Encodes bs :=
  ⟨Slice.inBounds_ofString _, Slice.toBytes_ofString _, hwf, hcount⟩

/-- The call of `ReplaceMiniRunRange` on a well-formed base within the bound of the
check: it returns OK, and the buffer holds what the lambda wrote over the forward
traversal followed by the footer. -/
theorem replace_of_encodes (base : LeafIndexEntry) (bs : List (List Byte)) (start end_ : Nat)
    (r : MiniRunIndexEntry) (buf : List Byte) (new_entry : LeafIndexEntry)
    (h : base.Encodes bs) (hN : bs.length < 2147483648)
    (hc : ¬ (start > base.GetNumMiniRuns ∨ end_ > base.GetNumMiniRuns)) :
    LeafIndexEntryBuilder.ReplaceMiniRunRange base start end_ r buf new_entry
      = .ok (Status.OK,
          replaceWrites start end_ r 0 (base.entries bs).reverse ++ EncodeFixed32 (bs.length + 1),
          leafOf (replaceWrites start end_ r 0 (base.entries bs).reverse
            ++ EncodeFixed32 (bs.length + 1))) := by
  have hlen : 0 + (base.entries bs).reverse.length ≤ 2147483647 := by
    rw [List.length_reverse, LeafIndexEntry.entries, entriesAt_length]
    omega
  obtain ⟨m, hm⟩ := forwardReplay_replace start end_ r (base.entries bs).reverse 0 [] 0 hlen
  rw [LeafIndexEntryBuilder.ReplaceMiniRunRange, if_neg hc,
    LeafIndexEntry.forward_of_encodes base bs h hN, hm]
  simp only [List.nil_append, PutFixed32, h.numMiniRuns]
  have hctor : LeafIndexEntry.ctor (Slice.ofString
      (replaceWrites start end_ r 0 (base.entries bs).reverse ++ EncodeFixed32 (bs.length + 1)))
      = some (leafOf (replaceWrites start end_ r 0 (base.entries bs).reverse
          ++ EncodeFixed32 (bs.length + 1))) := by
    rw [LeafIndexEntry.ctor, if_pos]
    · rfl
    · simp only [Slice.size_ofString, List.length_append, EncodeFixed32_length]
      omega
  rw [hctor]

/-- C9: `ReplaceMiniRunRange` returns InvalidArgument exactly when `start` or `end`
exceeds `GetNumMiniRuns` of the base, and then `buf` and `new_entry` are as they were on
entry; otherwise, on a well-formed base, it returns OK. -/
theorem replace_bounds_check (base : LeafIndexEntry) (start end_ : Nat)
    (r : MiniRunIndexEntry) (buf : List Byte) (new_entry : LeafIndexEntry) :
    ((∃ st b e, LeafIndexEntryBuilder.ReplaceMiniRunRange base start end_ r buf new_entry
          = .ok (st, b, e) ∧ st.IsInvalidArgument = true)
        ↔ (start > base.GetNumMiniRuns ∨ end_ > base.GetNumMiniRuns))
      ∧ ((start > base.GetNumMiniRuns ∨ end_ > base.GetNumMiniRuns) →
          ∃ msg, LeafIndexEntryBuilder.ReplaceMiniRunRange base start end_ r buf new_entry
            = .ok (Status.InvalidArgument msg, buf, new_entry))
      ∧ (∀ bs : List (List Byte), base.Encodes bs → bs.length < 2147483648 →
          ¬ (start > base.GetNumMiniRuns ∨ end_ > base.GetNumMiniRuns) →
          ∃ b e, LeafIndexEntryBuilder.ReplaceMiniRunRange base start end_ r buf new_entry
            = .ok (Status.OK, b, e)) := by
  have hinv : (start > base.GetNumMiniRuns ∨ end_ > base.GetNumMiniRuns) →
      ∃ msg, LeafIndexEntryBuilder.ReplaceMiniRunRange base start end_ r buf new_entry
        = .ok (Status.InvalidArgument msg, buf, new_entry) := by
    intro hc
    exact ⟨_, by rw [LeafIndexEntryBuilder.ReplaceMiniRunRange, if_pos hc]⟩
  refine ⟨⟨?_, ?_⟩, hinv, ?_⟩
  · rintro ⟨st, b, e, heq, hst⟩
    by_contra hc
    rw [LeafIndexEntryBuilder.ReplaceMiniRunRange, if_neg hc] at heq
    split at heq
    · cases heq
    · simp only at heq
      split at heq
      · cases heq
      · cases heq
        simp [Status.IsInvalidArgument] at hst
  · intro hc
    obtain ⟨msg, hmsg⟩ := hinv hc
    exact ⟨_, _, _, hmsg, rfl⟩
  · intro bs h hN hc
    exact ⟨_, _, replace_of_encodes base bs start end_ r buf new_entry h hN hc⟩

/-- Witness of C9: on the leaf entry with `entryA` and `entryB`, the range from 0 to 1 is
within the bound and the call returns OK. -/
theorem replace_bounds_check_witness :
    ∃ b e, LeafIndexEntryBuilder.ReplaceMiniRunRange (leafOf (encodeLeaf [entryA, entryB])) 0 1
      (entryOf entryC) [] leafE0 = .ok (Status.OK, b, e) :=
  (replace_bounds_check (leafOf (encodeLeaf [entryA, entryB])) 0 1 (entryOf entryC) [] leafE0).2.2
    [entryA, entryB] (encodes_leafOf _ (by decide) (by decide)) (by decide) (by decide)

/-- C8, counterexample: on the empty leaf the call with `start = end = 0` is not
rejected; it returns OK and writes the footer 1 alone, so the record of the
replacement `entryA` is written zero times. -/
theorem replace_may_omit_replacement :
    replaced leafE0 0 0 entryA = some (leafOf [1, 0, 0, 0])
      ∧ ¬ (entryA ++ EncodeFixed32 entryA.length) <:+: [1, 0, 0, 0] := by
  decide

/-- C8, amended: on a well-formed base with N entries and `start`, `end` at most N, the
call returns OK. When `start ≤ end` and `start < N` the record of the replacement
(its bytes and its length word) is written exactly once, at the call of the traversal
whose index is `start`: before it stand the records of the entries with a smaller
index, after it the records of the entries with an index above `end`. When `start = N`
or `start > end` the record of the replacement is not written and every entry is
kept. -/
theorem replace_emits_replacement (base : LeafIndexEntry) (bs : List (List Byte))
    (start end_ : Nat) (r : MiniRunIndexEntry) (buf : List Byte) (new_entry : LeafIndexEntry)
    (h : base.Encodes bs) (hN : bs.length < 2147483648)
    (hs : start ≤ bs.length) (he : end_ ≤ bs.length) :
    ∃ out e, LeafIndexEntryBuilder.ReplaceMiniRunRange base start end_ r buf new_entry
        = .ok (Status.OK, out, e)
      ∧ out = (if start ≤ end_ ∧ start < bs.length then
            keptRecords r ((base.entries bs).reverse.take start)
              ++ PutFixed32 r.GetRawData.toBytes r.GetRawData.size_
              ++ keptRecords r ((base.entries bs).reverse.drop (end_ + 1))
          else keptRecords r (base.entries bs).reverse)
          ++ EncodeFixed32 (bs.length + 1) := by
  have hc : ¬ (start > base.GetNumMiniRuns ∨ end_ > base.GetNumMiniRuns) := by
    rw [h.numMiniRuns]
    omega
  refine ⟨_, _, replace_of_encodes base bs start end_ r buf new_entry h hN hc, ?_⟩
  rw [replaceWrites_closed, List.length_reverse, LeafIndexEntry.entries, entriesAt_length]

/-- Witness of C8 amended: the range from 0 to 1 of the leaf entry with `entryA` and
`entryB`, replaced by `entryC`. -/
theorem replace_emits_replacement_witness :
    ∃ out e, LeafIndexEntryBuilder.ReplaceMiniRunRange (leafOf (encodeLeaf [entryA, entryB])) 0 1
        (entryOf entryC) [] leafE0 = .ok (Status.OK, out, e)
      ∧ out = entryC ++ EncodeFixed32 17 ++ EncodeFixed32 3 := by
  obtain ⟨out, e, h1, h2⟩ := replace_emits_replacement (leafOf (encodeLeaf [entryA, entryB]))
    [entryA, entryB] 0 1 (entryOf entryC) [] leafE0 (encodes_leafOf _ (by decide) (by decide))
    (by decide) (by decide) (by decide)
  refine ⟨out, e, h1, ?_⟩
  rw [h2]
  decide

/-! ## The lambda of `Get` -/

theorem GetProcessor_filter_miss {Segment MiniRun : Type} (store : LeafStore Segment MiniRun)
    (key : LookupKey) (x : MiniRunIndexEntry) (idx : Nat) (st : GetState)
    (h : store.FilterMiss key x) :
    store.GetProcessor key x idx st
      = (false, { st with calls := st.calls
          ++ [Call.KeyMayMatch x.GetFilterData key.internal_key] }) := by
  obtain ⟨policy, hp, hm⟩ := h
  simp only [LeafStore.GetProcessor, hp, hm, if_true]

theorem GetProcessor_skips {Segment MiniRun : Type} (store : LeafStore Segment MiniRun)
    (key : LookupKey) (x : MiniRunIndexEntry) (idx : Nat) (value : List Byte) (calls : List Call)
    (h : store.Skips key x) :
    ∃ calls2, store.GetProcessor key x idx ⟨.OK, value, calls⟩ = (false, ⟨.OK, value, calls2⟩) := by
  rcases h with h | ⟨run, ⟨seg, hseg, hrun⟩, hrest⟩
  · exact ⟨_, GetProcessor_filter_miss store key x idx _ h⟩
  · cases hfp : store.options_.filter_policy with
    | none =>
      refine ⟨calls ++ [Call.OpenSegment x.GetSegmentNumber]
        ++ [Call.OpenMiniRun x.GetRunNumberWithinSegment x.GetBlockIndexData], ?_⟩
      rcases hrest with hv | ⟨pk, hv, hparse, hcmp⟩
      · simp only [LeafStore.seekRun] at hv
        simp [LeafStore.GetProcessor, hfp, hseg, hrun, hv]
      · simp only [LeafStore.seekRun] at hv hparse
        simp [LeafStore.GetProcessor, hfp, hseg, hrun, hv, hparse, hcmp]
    | some policy =>
      cases hpol : policy x.GetFilterData key.internal_key with
      | false => exact ⟨_, GetProcessor_filter_miss store key x idx _ ⟨policy, hfp, hpol⟩⟩
      | true =>
        refine ⟨calls ++ [Call.KeyMayMatch x.GetFilterData key.internal_key]
          ++ [Call.OpenSegment x.GetSegmentNumber]
          ++ [Call.OpenMiniRun x.GetRunNumberWithinSegment x.GetBlockIndexData], ?_⟩
        rcases hrest with hv | ⟨pk, hv, hparse, hcmp⟩
        · simp only [LeafStore.seekRun] at hv
          simp [LeafStore.GetProcessor, hfp, hpol, hseg, hrun, hv]
        · simp only [LeafStore.seekRun] at hv hparse
          simp [LeafStore.GetProcessor, hfp, hpol, hseg, hrun, hv, hparse, hcmp]

theorem GetProcessor_hit {Segment MiniRun : Type} (store : LeafStore Segment MiniRun)
    (key : LookupKey) (x : MiniRunIndexEntry) (idx : Nat) (value : List Byte) (calls : List Call)
    (run : MiniRun) (pk : ParsedInternalKey) (h : store.Hits key x run pk) :
    store.GetProcessor key x idx ⟨.OK, value, calls⟩
      = (true, ⟨if pk.type = ValueType.kTypeValue then Status.OK else Status.NotFound "",
          if pk.type = ValueType.kTypeValue then (store.seekRun key run).value else value,
          calls ++ store.probeCalls key x ++ store.openCalls x⟩) := by
  obtain ⟨hpass, ⟨seg, hseg, hrun⟩, hv, hparse, hcmp⟩ := h
  simp only [LeafStore.seekRun] at hv hparse
  cases hfp : store.options_.filter_policy with
  | none =>
    by_cases ht : pk.type = ValueType.kTypeValue
    · simp [LeafStore.GetProcessor, LeafStore.probeCalls, LeafStore.openCalls, LeafStore.seekRun,
        hfp, hseg, hrun, hv, hparse, hcmp, ht]
    · simp [LeafStore.GetProcessor, LeafStore.probeCalls, LeafStore.openCalls, LeafStore.seekRun,
        hfp, hseg, hrun, hv, hparse, hcmp, ht]
  | some policy =>
    have hpol := hpass policy hfp
    by_cases ht : pk.type = ValueType.kTypeValue
    · simp [LeafStore.GetProcessor, LeafStore.probeCalls, LeafStore.openCalls, LeafStore.seekRun,
        hfp, hpol, hseg, hrun, hv, hparse, hcmp, ht]
    · simp [LeafStore.GetProcessor, LeafStore.probeCalls, LeafStore.openCalls, LeafStore.seekRun,
        hfp, hpol, hseg, hrun, hv, hparse, hcmp, ht]

theorem GetProcessor_open_fails {Segment MiniRun : Type} (store : LeafStore Segment MiniRun)
    (key : LookupKey) (x : MiniRunIndexEntry) (idx : Nat) (st : GetState) (f : Failure)
    (hpass : store.FilterPass key x) (h : store.OpenFails x f) :
    store.GetProcessor key x idx st
      = (true, ⟨Status.Error f, st.value,
          st.calls ++ store.probeCalls key x ++ store.openCalls x⟩) := by
  cases hfp : store.options_.filter_policy with
  | none =>
    rcases h with hseg | ⟨seg, hseg, hrun⟩
    · simp [LeafStore.GetProcessor, LeafStore.probeCalls, LeafStore.openCalls, hfp, hseg]
    · simp [LeafStore.GetProcessor, LeafStore.probeCalls, LeafStore.openCalls, hfp, hseg, hrun]
  | some policy =>
    have hpol := hpass policy hfp
    rcases h with hseg | ⟨seg, hseg, hrun⟩
    · simp [LeafStore.GetProcessor, LeafStore.probeCalls, LeafStore.openCalls, hfp, hpol, hseg]
    · simp [LeafStore.GetProcessor, LeafStore.probeCalls, LeafStore.openCalls, hfp, hpol, hseg, hrun]

/-! ## `Get` on a well-formed leaf entry -/

theorem feedBackward_skips {Segment MiniRun : Type} (store : LeafStore Segment MiniRun)
    (key : LookupKey) (n : Nat) (ys rest : List MiniRunIndexEntry) (value : List Byte) :
    (∀ x ∈ ys, store.Skips key x) →
    ∀ (i : Nat) (calls : List Call),
      ∃ calls2, feedBackward (store.GetProcessor key) n i (ys ++ rest) ⟨.OK, value, calls⟩
        = feedBackward (store.GetProcessor key) n (i + ys.length) rest ⟨.OK, value, calls2⟩ := by
  induction ys with
  | nil =>
    intro _ i calls
    exact ⟨calls, rfl⟩
  | cons y ys ih =>
    intro h i calls
    obtain ⟨c1, hc1⟩ := GetProcessor_skips store key y
      ((n + 4294967296 - i) % 4294967296) value calls (h y (by simp))
    obtain ⟨c2, hc2⟩ := ih (fun x hx => h x (by simp [hx])) (i + 1) c1
    refine ⟨c2, ?_⟩
    show feedBackward (store.GetProcessor key) n i (y :: (ys ++ rest)) _ = _
    rw [feedBackward]
    simp only [hc1, Bool.false_eq_true, if_false, hc2, List.length_cons]
    have hi : i + 1 + ys.length = i + (ys.length + 1) := by omega
    rw [hi]

theorem feedBackward_filter_miss {Segment MiniRun : Type} (store : LeafStore Segment MiniRun)
    (key : LookupKey) (n : Nat) (ys rest : List MiniRunIndexEntry) :
    (∀ x ∈ ys, store.FilterMiss key x) →
    ∀ (i : Nat) (st : GetState),
      feedBackward (store.GetProcessor key) n i (ys ++ rest) st
        = feedBackward (store.GetProcessor key) n (i + ys.length) rest
            { st with calls := st.calls
                ++ ys.map (fun x => Call.KeyMayMatch x.GetFilterData key.internal_key) } := by
  induction ys with
  | nil =>
    intro _ i st
    simp
  | cons y ys ih =>
    intro h i st
    have h1 := GetProcessor_filter_miss store key y ((n + 4294967296 - i) % 4294967296) st
      (h y (by simp))
    show feedBackward (store.GetProcessor key) n i (y :: (ys ++ rest)) _ = _
    rw [feedBackward]
    simp only [h1, Bool.false_eq_true, if_false, ih (fun x hx => h x (by simp [hx])),
      List.length_cons, List.map_cons, List.append_assoc, List.singleton_append]
    have hi : i + 1 + ys.length = i + (ys.length + 1) := by omega
    rw [hi]

/-- The call of `Get` whose seek in the leaf index lands on a well-formed leaf entry
with at least one entry: the lambda is called on the entries newest first. -/
theorem Get_of_encodes {Segment MiniRun : Type} (store : LeafStore Segment MiniRun)
    (key : LookupKey) (value : List Byte) (bs : List (List Byte))
    (hvalid : (store.seekLeaf key).Valid = true)
    (henc : (leafOf (store.seekLeaf key).value).Encodes bs)
    (hpos : 0 < bs.length) (hN : bs.length ≤ 1073741824) :
    store.Get key value
      = backwardEnd (feedBackward (store.GetProcessor key) bs.length (bs.length - 1)
            ((leafOf (store.seekLeaf key).value).entries bs).reverse ⟨.OK, value, []⟩) := by
  have hctor : LeafIndexEntry.ctor (Slice.ofString (store.seekLeaf key).value)
      = some (leafOf (store.seekLeaf key).value) := by
    obtain ⟨front, back, _, _, hsize⟩ := henc.mem_eq
    rw [LeafIndexEntry.ctor, if_pos]
    · rfl
    · have : (leafOf (store.seekLeaf key).value).raw_data_.size_
          = (Slice.ofString (store.seekLeaf key).value).size_ := rfl
      omega
  simp only [LeafStore.seekLeaf] at hvalid hctor
  simp only [LeafStore.Get, hvalid, hctor]
  rw [if_neg (by decide)]
  exact LeafIndexEntry.backward_of_encodes (leafOf (store.seekLeaf key).value) bs henc hpos hN
    (store.GetProcessor key) ⟨.OK, value, []⟩

/-- C11: when the seek in the leaf index lands on a well-formed leaf entry, `e` is the
newest entry whose mini-run holds the user key of the lookup (it passes the filter, it
opens, the seek of the internal key is positioned on a key that parses to `pk` with
that user key) and every newer entry yields nothing (filter miss, or an open mini-run
without that user key at the seek position), `Get` returns: with OK and the value at
the seek position when the tag of `pk` is VALUE, with NotFound and `*value` untouched
when it is DELETION, whatever the older entries hold. -/
theorem get_most_recent_wins {Segment MiniRun : Type} (store : LeafStore Segment MiniRun)
    (key : LookupKey) (value : List Byte) (bs : List (List Byte))
    (older newer : List MiniRunIndexEntry) (e : MiniRunIndexEntry) (run : MiniRun)
    (pk : ParsedInternalKey)
    (hvalid : (store.seekLeaf key).Valid = true)
    (henc : (leafOf (store.seekLeaf key).value).Encodes bs)
    (hN : bs.length ≤ 1073741824)
    (hsplit : (leafOf (store.seekLeaf key).value).entries bs = older ++ e :: newer)
    (hnewer : ∀ x ∈ newer, store.Skips key x)
    (hhit : store.Hits key e run pk) :
    (store.Get key value).2 = Exit.returned
      ∧ (store.Get key value).1.s
          = (if pk.type = ValueType.kTypeValue then Status.OK else Status.NotFound "")
      ∧ (store.Get key value).1.value
          = (if pk.type = ValueType.kTypeValue then (store.seekRun key run).value else value) := by
  have hpos : 0 < bs.length := by
    have h := congrArg List.length hsplit
    rw [entries_length, List.length_append, List.length_cons] at h
    omega
  have hrev : ((leafOf (store.seekLeaf key).value).entries bs).reverse
      = newer.reverse ++ e :: older.reverse := by
    rw [hsplit]
    simp
  obtain ⟨calls2, hfeed⟩ := feedBackward_skips store key bs.length newer.reverse
    (e :: older.reverse) value (fun x hx => hnewer x (List.mem_reverse.mp hx)) (bs.length - 1) []
  rw [Get_of_encodes store key value bs hvalid henc hpos hN, hrev, hfeed, feedBackward,
    GetProcessor_hit store key e _ value calls2 run pk hhit]
  exact ⟨rfl, rfl, rfl⟩

/-- C13: when the seek in the leaf index lands on a well-formed leaf entry, every entry
newer than `e` is skipped by its filter, `e` passes the filter and its open step fails
with `f` (the segment does not open, or the mini-run does not), `Get` returns the
status `f` and leaves `*value` untouched; the calls it made are the filter probes of
the newer entries, the probe of `e` and the open calls of `e`, and nothing for an
older entry. -/
theorem get_surfaces_open_failure {Segment MiniRun : Type} (store : LeafStore Segment MiniRun)
    (key : LookupKey) (value : List Byte) (bs : List (List Byte))
    (older newer : List MiniRunIndexEntry) (e : MiniRunIndexEntry) (f : Failure)
    (hvalid : (store.seekLeaf key).Valid = true)
    (henc : (leafOf (store.seekLeaf key).value).Encodes bs)
    (hN : bs.length ≤ 1073741824)
    (hsplit : (leafOf (store.seekLeaf key).value).entries bs = older ++ e :: newer)
    (hnewer : ∀ x ∈ newer, store.FilterMiss key x)
    (hpass : store.FilterPass key e)
    (hfail : store.OpenFails e f) :
    store.Get key value
      = (⟨Status.Error f, value,
          newer.reverse.map (fun x => Call.KeyMayMatch x.GetFilterData key.internal_key)
            ++ store.probeCalls key e ++ store.openCalls e⟩, Exit.returned) := by
  have hpos : 0 < bs.length := by
    have h := congrArg List.length hsplit
    rw [entries_length, List.length_append, List.length_cons] at h
    omega
  have hrev : ((leafOf (store.seekLeaf key).value).entries bs).reverse
      = newer.reverse ++ e :: older.reverse := by
    rw [hsplit]
    simp
  rw [Get_of_encodes store key value bs hvalid henc hpos hN, hrev,
    feedBackward_filter_miss store key bs.length newer.reverse (e :: older.reverse)
      (fun x hx => hnewer x (List.mem_reverse.mp hx)),
    feedBackward, GetProcessor_open_fails store key e _ _ f hpass hfail]
  simp [backwardEnd]

/-- C14: with a filter policy configured, the lambda of `Get` on an entry whose filter
reports a definite miss makes the filter probe and no other call, leaves the status and
`*value` as they were and asks the traversal to go on; with no filter policy the first
call it makes for an entry is `OpenSegment` with the segment number of the entry. On a
well-formed leaf entry whose newest entries are all filter misses the traversal of `Get`
goes on with the older entries, having made the filter probes only. -/
theorem get_filter_short_circuit {Segment MiniRun : Type} (store : LeafStore Segment MiniRun)
    (key : LookupKey) (value : List Byte) :
    (∀ (x : MiniRunIndexEntry) (idx : Nat) (st : GetState), store.FilterMiss key x →
        store.GetProcessor key x idx st
          = (false, { st with calls := st.calls
              ++ [Call.KeyMayMatch x.GetFilterData key.internal_key] }))
      ∧ (∀ (x : MiniRunIndexEntry) (idx : Nat) (st : GetState),
          store.options_.filter_policy = none →
          ∃ rest, (store.GetProcessor key x idx st).2.calls
            = st.calls ++ Call.OpenSegment x.GetSegmentNumber :: rest)
      ∧ (∀ (bs : List (List Byte)) (older newer : List MiniRunIndexEntry),
          (store.seekLeaf key).Valid = true →
          (leafOf (store.seekLeaf key).value).Encodes bs →
          0 < bs.length → bs.length ≤ 1073741824 →
          (leafOf (store.seekLeaf key).value).entries bs = older ++ newer →
          (∀ x ∈ newer, store.FilterMiss key x) →
          store.Get key value
            = backwardEnd (feedBackward (store.GetProcessor key) bs.length
                (bs.length - 1 + newer.length) older.reverse
                ⟨.OK, value, newer.reverse.map
                  (fun x => Call.KeyMayMatch x.GetFilterData key.internal_key)⟩)) := by
  refine ⟨fun x idx st h => GetProcessor_filter_miss store key x idx st h, ?_, ?_⟩
  · intro x idx st hfp
    cases hseg : store.seg_manager_.OpenSegment x.GetSegmentNumber with
    | error f =>
      exact ⟨[], by simp [LeafStore.GetProcessor, hfp, hseg]⟩
    | ok seg =>
      cases hrun : store.seg_manager_.OpenMiniRun seg x.GetRunNumberWithinSegment
          x.GetBlockIndexData with
      | error f =>
        exact ⟨[Call.OpenMiniRun x.GetRunNumberWithinSegment x.GetBlockIndexData],
          by simp [LeafStore.GetProcessor, hfp, hseg, hrun]⟩
      | ok run =>
        refine ⟨[Call.OpenMiniRun x.GetRunNumberWithinSegment x.GetBlockIndexData], ?_⟩
        simp only [LeafStore.GetProcessor, hfp, hseg, hrun]
        rw [if_neg (by decide)]
        by_cases hv : (Iterator.Seek store.options_.comparator key.internal_key
            (store.seg_manager_.NewIterator run)).Valid = true
        · rw [if_pos hv]
          cases store.ParseInternalKey (Iterator.Seek store.options_.comparator
              key.internal_key (store.seg_manager_.NewIterator run)).key with
          | none => simp
          | some pk =>
            by_cases hc : store.user_cmp_ pk.user_key key.user_key = 0
            · by_cases ht : pk.type = ValueType.kTypeValue
              · simp [hc, ht]
              · simp [hc, ht]
            · simp [hc]
        · rw [if_neg hv]
          simp
  · intro bs older newer hvalid henc hpos hN hsplit hnewer
    have hrev : ((leafOf (store.seekLeaf key).value).entries bs).reverse
        = newer.reverse ++ older.reverse := by
      rw [hsplit]
      simp
    rw [Get_of_encodes store key value bs hvalid henc hpos hN, hrev,
      feedBackward_filter_miss store key bs.length newer.reverse older.reverse
        (fun x hx => hnewer x (List.mem_reverse.mp hx))]
    simp

/-- Witness of C11: scenarios 2 and 3 of section 8. With the runs `k -> 1`, `k -> DEL`,
`k -> 3` appended in that order `Get` of `k` returns OK with the value `3`; with the
runs `k -> 1`, `k -> DEL` it returns NotFound. -/
theorem get_most_recent_wins_witness :
    ((scenarioStore2.Get (demoLookup [107]) []).1.s = Status.OK
        ∧ (scenarioStore2.Get (demoLookup [107]) []).1.value = [51])
      ∧ (scenarioStore3.Get (demoLookup [107]) []).1.s = Status.NotFound "" := by
  have h2 := get_most_recent_wins scenarioStore2 (demoLookup [107]) []
    [runEntry 1 0, runEntry 1 1, runEntry 1 2]
    [MiniRunIndexEntry.read ⟨encodeLeaf [runEntry 1 0, runEntry 1 1, runEntry 1 2], 0, 16⟩,
      MiniRunIndexEntry.read ⟨encodeLeaf [runEntry 1 0, runEntry 1 1, runEntry 1 2], 20, 16⟩]
    []
    (MiniRunIndexEntry.read ⟨encodeLeaf [runEntry 1 0, runEntry 1 1, runEntry 1 2], 40, 16⟩)
    [([107, 1], [51])] ⟨[107], 0, ValueType.kTypeValue⟩
    (by decide) (encodes_leafOf _ (by decide) (by decide)) (by decide) (by decide)
    (fun x hx => by cases hx)
    ⟨(fun policy hp => by cases hp), ⟨1, rfl, rfl⟩, by decide, by decide, by decide⟩
  have h3 := get_most_recent_wins scenarioStore3 (demoLookup [107]) []
    [runEntry 1 0, runEntry 1 1]
    [MiniRunIndexEntry.read ⟨encodeLeaf [runEntry 1 0, runEntry 1 1], 0, 16⟩]
    []
    (MiniRunIndexEntry.read ⟨encodeLeaf [runEntry 1 0, runEntry 1 1], 20, 16⟩)
    [([107, 0], [])] ⟨[107], 0, ValueType.kTypeDeletion⟩
    (by decide) (encodes_leafOf _ (by decide) (by decide)) (by decide) (by decide)
    (fun x hx => by cases hx)
    ⟨(fun policy hp => by cases hp), ⟨1, rfl, rfl⟩, by decide, by decide, by decide⟩
  exact ⟨⟨h2.2.1, h2.2.2⟩, h3.2.1⟩

/-- Witness of C13: in `failStore` the newest entry is excluded by its filter and the
next one names segment 5, which does not open; `Get` returns that IOError, leaves
`*value` empty and makes three calls, none for the oldest entry. -/
theorem get_surfaces_open_failure_witness :
    failStore.Get (demoLookup [107]) []
      = (⟨Status.Error ⟨Code.kIOError, "no such segment"⟩, [],
          [Call.KeyMayMatch ⟨failLeaf, 57, 1⟩ [107, 1], Call.KeyMayMatch ⟨failLeaf, 36, 1⟩ [107, 1],
            Call.OpenSegment 5]⟩, Exit.returned) :=
  get_surfaces_open_failure failStore (demoLookup [107]) []
    [runEntry 1 0, failEntry, missEntry]
    [MiniRunIndexEntry.read ⟨failLeaf, 0, 16⟩] [MiniRunIndexEntry.read ⟨failLeaf, 41, 17⟩]
    (MiniRunIndexEntry.read ⟨failLeaf, 20, 17⟩) ⟨Code.kIOError, "no such segment"⟩
    (by decide) (encodes_leafOf _ (by decide) (by decide)) (by decide) (by decide)
    (fun x hx => by
      rw [List.mem_singleton] at hx
      subst hx
      exact ⟨tagFilter, rfl, by decide⟩)
    (fun policy hp => by
      obtain rfl : tagFilter = policy := Option.some.inj hp
      decide)
    (Or.inl rfl)

/-- Witness of C14: with the policy `rejectAll` the lambda of `Get` on the entry of run 2
of segment 1 makes the filter probe alone and asks to go on. -/
theorem get_filter_short_circuit_witness :
    (demoStore scenarioRuns [] (some rejectAll)).GetProcessor (demoLookup [107])
        (entryOf (runEntry 1 2)) 0 ⟨Status.OK, [], []⟩
      = (false, ⟨Status.OK, [],
          [Call.KeyMayMatch (entryOf (runEntry 1 2)).GetFilterData [107, 1]]⟩) :=
  (get_filter_short_circuit (demoStore scenarioRuns [] (some rejectAll)) (demoLookup [107]) []).1
    (entryOf (runEntry 1 2)) 0 ⟨Status.OK, [], []⟩ ⟨rejectAll, rfl, rfl⟩

/-! ## The read path on concrete stores -/

/-- C12, evaluation: when the seek of `q` (byte 113) lands on the empty leaf of four
zero bytes, `Get` returns OK, not NotFound, with `*value` untouched; when it lands on a
leaf whose single run holds the key `x` alone, `Get` does not return: after the call for
that run the traversal fails the assertion on the pointer, and the status is OK. -/
theorem get_of_absent_key :
    emptyLeafStore.Get (demoLookup [113]) [] = (⟨Status.OK, [], []⟩, Exit.returned)
      ∧ (otherKeyStore.Get (demoLookup [113]) []).2 = Exit.aborted Fault.assertFailed
      ∧ (otherKeyStore.Get (demoLookup [113]) []).1.s = Status.OK := by
  decide

/-- C15, evaluation: when every open succeeds, `NewIteratorForLeaf` sets the status OK
and returns the null pointer; when the segment of the entry does not open it sets the
status to that failure and returns a merging iterator. -/
theorem new_iterator_for_leaf_direction :
    ((scenarioStore2.NewIteratorForLeaf (leafOf (encodeLeaf [runEntry 1 0])) 0 4294967295).1.iter
          = none
        ∧ (scenarioStore2.NewIteratorForLeaf (leafOf (encodeLeaf [runEntry 1 0])) 0
            4294967295).1.s = Status.OK)
      ∧ ((scenarioStore2.NewIteratorForLeaf (leafOf (encodeLeaf [runEntry 5 0])) 0
            4294967295).1.iter = some (NewMergingIterator demoInternalCompare [])
        ∧ (scenarioStore2.NewIteratorForLeaf (leafOf (encodeLeaf [runEntry 5 0])) 0
            4294967295).1.s = Status.Error ⟨Code.kIOError, "no such segment"⟩) := by
  decide

/-- C16, evaluation: on the store of scenario 5, with two leaves, `SeekToFirst` on the
iterator of `NewIterator` is aborted by the use of the null pointer that
`NewIteratorForLeaf` returned; on a store with no leaf it is aborted too, by the use of
the initial null `leaf_it_`. -/
theorem seek_to_first_uses_null :
    faultOf (LeafStoreIterator.SeekToFirst twoLeafStore twoLeafStore.NewIterator)
        = some Fault.nullDeref
      ∧ faultOf (LeafStoreIterator.SeekToFirst noLeafStore noLeafStore.NewIterator)
        = some Fault.nullDeref := by
  decide

/-- C20, evaluation: for the entry of run 2 of segment 1, alone in its leaf,
`NewIteratorForLeaf` passes the traversal index 0 to `OpenMiniRun`, where `Get` passes
the run number 2 of the entry. -/
theorem new_iterator_for_leaf_opens_index :
    (scenarioStore2.NewIteratorForLeaf (leafOf (encodeLeaf [runEntry 1 2])) 0 4294967295).1.calls
        = [Call.OpenSegment 1, Call.OpenMiniRun 0 ⟨encodeLeaf [runEntry 1 2], 16, 0⟩]
      ∧ ((demoStore scenarioRuns [([122], encodeLeaf [runEntry 1 2])] none).Get
          (demoLookup [107]) []).1.calls
        = [Call.OpenSegment 1, Call.OpenMiniRun 2 ⟨encodeLeaf [runEntry 1 2], 16, 0⟩] := by
  decide

/-! ## The direction of `NewIteratorForLeaf` and its use by the iterator -/

/-- Whenever `NewIteratorForLeaf` returns, the pointer it returns is null exactly when
the status it sets is OK. -/
theorem NewIteratorForLeaf_null_iff_ok {Segment MiniRun : Type}
    (store : LeafStore Segment MiniRun) (leaf : LeafIndexEntry) (start_no end_no : Nat)
    (h : (store.NewIteratorForLeaf leaf start_no end_no).2 = Exit.returned) :
    ((store.NewIteratorForLeaf leaf start_no end_no).1.iter = none
      ↔ (store.NewIteratorForLeaf leaf start_no end_no).1.s.ok = true) := by
  unfold LeafStore.NewIteratorForLeaf at h ⊢
  split at h
  · cases h
  · rename_i st heq
    by_cases hs : st.s.ok = true
    · simp [hs]
    · simp [hs]

/-- A call of `OpenLeafIterator` that returns: the cursor of the leaf index is as it
was; when that cursor is valid and the new status is OK the new `leaf_it_` is null,
and when it is not valid nothing changed. -/
theorem OpenLeafIterator_ok {Segment MiniRun : Type} (store : LeafStore Segment MiniRun)
    (it it1 : LeafStoreIterator) (h : LeafStoreIterator.OpenLeafIterator store it = .ok it1) :
    it1.leaf_index_it_ = it.leaf_index_it_
      ∧ (it.leaf_index_it_.Valid = true → it1.status_.ok = true → it1.leaf_it_ = none) := by
  unfold LeafStoreIterator.OpenLeafIterator at h
  by_cases hv : it.leaf_index_it_.Valid = true
  · rw [if_pos hv] at h
    split at h
    · cases h
    · rename_i index_entry hctor
      split at h
      · cases h
      · rename_i r hnew
        cases h
        have hnull := NewIteratorForLeaf_null_iff_ok store index_entry 0 4294967295
          (by rw [hnew])
        rw [hnew] at hnull
        exact ⟨rfl, fun _ hs => hnull.mpr hs⟩
  · rw [if_neg hv] at h
    cases h
    exact ⟨rfl, fun h1 => absurd h1 hv⟩

/-- A call of `SeekToFirst` that returns leaves the iterator not valid. -/
theorem SeekToFirst_not_valid {Segment MiniRun : Type} (store : LeafStore Segment MiniRun)
    (it it2 : LeafStoreIterator) (h : LeafStoreIterator.SeekToFirst store it = .ok it2) :
    it2.Valid = false := by
  unfold LeafStoreIterator.SeekToFirst at h
  simp only at h
  split at h
  · cases h
  · rename_i it1 hopen
    obtain ⟨hidx, hnull⟩ := OpenLeafIterator_ok store _ it1 hopen
    by_cases hs : it1.status_.ok = true
    · rw [if_pos hs] at h
      cases hleaf : it1.leaf_it_ with
      | none =>
        rw [hleaf] at h
        cases h
      | some leaf_it =>
        rw [hleaf] at h
        cases h
        by_cases hv : it1.leaf_index_it_.Valid = true
        · have := hnull (by rw [← hidx]; exact hv) hs
          rw [hleaf] at this
          cases this
        · simp [LeafStoreIterator.Valid, hv]
    · rw [if_neg hs] at h
      cases h
      simp [LeafStoreIterator.Valid, hs]

end Silkstore

